import Mathlib

/-!
# Verification development for the `worker.js` prime-factorization engine

Shallow embedding of the factorization worker: the Sieve of Eratosthenes
prime table, the numeric primitives (`gcd`, `modPow`, `randBigInt`), the
Miller–Rabin primality oracle, Pollard's rho factor finder, the
trial-division + work-stack orchestrator (`factorize`), and the message
handler built on JS `BigInt(string)` parsing.

Conventions of the embedding:
* All BigInt values occurring in the engine are non-negative, so the core is
  modelled over `Nat`, whose `/` and `%` agree with JS BigInt truncated
  division and remainder on non-negative operands.  `randBigInt` keeps its
  `Int` signature (JS BigInt), using `Int.tmod` for the JS `%` operator.
* The random source (`Math.random()`-derived values, one per `randBigInt`
  call) is modelled as a stream `rand : Nat → Nat` of arbitrary non-negative
  raw values, consumed at an explicit position that is threaded through the
  computation.  Theorems quantify over all streams.
* `while` loops whose iteration count is bounded by an argument are modelled
  with structural fuel set to that bound at the entry point (`gcd`,
  `modPow`, the `d/2` loop, the trial-division divide-out loop); loops with
  no intrinsic bound (Pollard's rho retry loop, the orchestrator's work
  stack) take an explicit fuel and return `none` on exhaustion, so `none`
  for every fuel models divergence.
* The JS object used as factor multiset is modelled as an insertion-ordered
  association list; the engine-level iteration order of its (stringified
  integer) keys is modelled separately by `jsKeyOrder` following the
  ECMAScript own-property-key order.
-/

namespace Worker

/-- `gcd` from worker.js, loop body: `while (b > 0n) { temp = b; b = a % b; a = temp }`.
Fuel bounds the iteration count; `b` strictly decreases each round, so fuel `b` suffices. -/
def gcdAux : Nat → Nat → Nat → Nat
  | 0, a, _ => a
  | fuel + 1, a, b => if 0 < b then gcdAux fuel b (a % b) else a

/-- `gcd(a, b)` from worker.js. -/
def gcd (a b : Nat) : Nat := gcdAux b a b

/-- `modPow` loop body from worker.js:
`while (exp > 0n) { if (exp % 2n === 1n) res = res*base % mod; base = base*base % mod; exp /= 2n }`.
The iteration count is the bit length of `exp`, which is at most `exp`. -/
def modPowAux : Nat → Nat → Nat → Nat → Nat → Nat
  | 0, res, _, _, _ => res
  | fuel + 1, res, base, exp, mod =>
    if 0 < exp then
      modPowAux fuel (if exp % 2 = 1 then res * base % mod else res)
        (base * base % mod) (exp / 2) mod
    else res

/-- `modPow(base, exp, mod)` from worker.js (`base %= mod` happens first). -/
def modPow (base exp mod : Nat) : Nat := modPowAux exp 1 (base % mod) exp mod

/-- `randBigInt(min, max)` from worker.js:
`range = max - min; randNum = BigInt(Math.floor(Math.random() * MAX_SAFE_INTEGER));
return randNum % range + min;`.
`randNum` is the raw non-negative value drawn from the random source; JS BigInt `%`
is truncated remainder, i.e. `Int.tmod`. -/
def randBigInt (randNum : Nat) (min max : Int) : Int :=
  Int.tmod randNum (max - min) + min

/-- The `n - 1 = d * 2^r` extraction loop of `isPrimeMillerRabin`:
`while (d % 2n === 0n) { d /= 2n; r += 1n }`, returning `(d, r)`.
Fuel `d` bounds the halving count; the `0 < d` conjunct totalizes the
(unreachable in the engine) divergent case `d = 0`. -/
def split2Aux : Nat → Nat → Nat × Nat
  | 0, d => (d, 0)
  | fuel + 1, d =>
    if d % 2 = 0 ∧ 0 < d then
      let p := split2Aux fuel (d / 2)
      (p.1, p.2 + 1)
    else (d, 0)

/-- Split `d` as `oddPart * 2^r`, as done on `n - 1` by `isPrimeMillerRabin`. -/
def split2 (d : Nat) : Nat × Nat := split2Aux d d

/-! ## Sieve of Eratosthenes (`generatePrimes`) -/

/-- A store `isPrime[i] = 0` on the JS `Uint8Array` of 0/1 flags, the array
being modelled as its indicator function. -/
def setFalse (t : Nat → Bool) (i : Nat) : Nat → Bool :=
  fun j => if j = i then false else t j

/-- Inner marking loop of `generatePrimes`:
`for (let i = p*p; i <= limit; i += p) isPrime[i] = 0;` (entered with `i = p*p`). -/
def sieveMarkLoop (limit p : Nat) (t : Nat → Bool) (i : Nat) : Nat → Bool :=
  if _h : i ≤ limit ∧ 0 < p then sieveMarkLoop limit p (setFalse t i) (i + p) else t
termination_by limit + 1 - i
decreasing_by omega

/-- Outer loop of `generatePrimes`:
`for (let p = 2; p*p <= limit; p++) if (isPrime[p]) { mark multiples }`. -/
def sieveOuter (limit : Nat) (t : Nat → Bool) (p : Nat) : Nat → Bool :=
  if h : p * p ≤ limit then
    sieveOuter limit (if t p then sieveMarkLoop limit p t (p * p) else t) (p + 1)
  else t
termination_by limit + 1 - p
decreasing_by
  have hple : p ≤ limit := by
    rcases Nat.eq_zero_or_pos p with h0 | h0
    · omega
    · have h1 : p * 1 ≤ p * p := Nat.mul_le_mul_left p h0
      omega
  omega

/-- The table state after `fill(1)` and `isPrime[0] = isPrime[1] = 0`. -/
def sieveInit : Nat → Bool := setFalse (setFalse (fun _ => true) 0) 1

/-- Collection loop of `generatePrimes`:
`for (let i = 0; i <= limit; i++) if (isPrime[i]) primes.push(BigInt(i))`. -/
def sieveCollect (limit : Nat) (t : Nat → Bool) (i : Nat) : List Nat :=
  if h : i ≤ limit then
    (if t i then i :: sieveCollect limit t (i + 1) else sieveCollect limit t (i + 1))
  else []
termination_by limit + 1 - i

/-- `generatePrimes(limit)` from worker.js. -/
def generatePrimes (limit : Nat) : List Nat :=
  sieveCollect limit (sieveOuter limit sieveInit 2) 0

/-- `const PRIME_LIMIT = 100000`. -/
def PRIME_LIMIT : Nat := 100000

/-- `smallPrimes = generatePrimes(PRIME_LIMIT)`, computed once at worker
startup and shared by every `factorize` call. -/
def smallPrimes : List Nat := generatePrimes PRIME_LIMIT

/-! ## Miller–Rabin primality oracle -/

/-- Inner witness-squaring loop of `isPrimeMillerRabin`:
`for (let j = 0n; j < r - 1n; j++) { x = x*x % n; if (x === n - 1n) { pass } }`,
`count` being the remaining iteration budget (`r - 1` at entry).  Returns
whether the round passed (`continueLoop` in the source). -/
def mrInner (n : Nat) : Nat → Nat → Bool
  | 0, _ => false
  | count + 1, x =>
    let x2 := x * x % n
    if x2 = n - 1 then true else mrInner n count x2

/-- One Miller–Rabin round, drawing the witness at stream position `pos`:
`a = randBigInt(2n, n - 2n); x = modPow(a, d, n);
if (x === 1n || x === n - 1n) continue; ...`. -/
def mrRound (rand : Nat → Nat) (pos n d r : Nat) : Bool :=
  let a := (randBigInt (rand pos) 2 ((n : Int) - 2)).toNat
  let x := modPow a d n
  if x = 1 ∨ x = n - 1 then true else mrInner n (r - 1) x

/-- The `for (let i = 0; i < k; i++)` round loop; returns the verdict and the
next stream position (each executed round consumes one raw random value, and
the loop exits early on a failing round). -/
def mrRounds (rand : Nat → Nat) (n d r : Nat) : Nat → Nat → Bool × Nat
  | pos, 0 => (true, pos)
  | pos, k + 1 =>
    if mrRound rand pos n d r then mrRounds rand n d r (pos + 1) k else (false, pos + 1)

/-- `isPrimeMillerRabin(n, k)` from worker.js (the source's default argument
`k = 5` is supplied explicitly at the call sites). -/
def isPrimeMillerRabin (rand : Nat → Nat) (pos n k : Nat) : Bool × Nat :=
  if n < 2 then (false, pos)
  else if n = 2 ∨ n = 3 then (true, pos)
  else if n % 2 = 0 then (false, pos)
  else
    let dr := split2 (n - 1)
    mrRounds rand n dr.1 dr.2 pos k

/-! ## Pollard's rho factor finder -/

/-- The `while (g === 1n)` walk of `pollardRho`; consumes no randomness.
`x` advances once and `y` twice per step; `diff = |x - y|`, `g = gcd(diff, n)`.
Returns the first `g ≠ 1` (the caller restarts on `g = n`), or `none` when out
of fuel (the walk has no a-priori iteration bound). -/
def rhoInner (n c : Nat) : Nat → Nat → Nat → Option Nat
  | 0, _, _ => none
  | fuel + 1, x, y =>
    let x1 := (x * x + c) % n
    let ya := (y * y + c) % n
    let y1 := (ya * ya + c) % n
    let diff := if x1 > y1 then x1 - y1 else y1 - x1
    let g := gcd diff n
    if g = 1 then rhoInner n c fuel x1 y1 else some g

/-- `pollardRho(n)` from worker.js.  Even `n` returns `2` at once.  Each
attempt draws `x = y = randBigInt(2n, n - 1n)` and `c = randBigInt(1n, n - 1n)`
from the stream; on the degenerate outcome `g === n` the whole search restarts
with fresh randomness (`return pollardRho(n)`).  Fuel bounds the attempts and
walk steps; returns the factor and the next stream position. -/
def pollardRho (rand : Nat → Nat) : Nat → Nat → Nat → Option (Nat × Nat)
  | 0, _, _ => none
  | fuel + 1, pos, n =>
    if n % 2 = 0 then some (2, pos)
    else
      let x0 := (randBigInt (rand pos) 2 ((n : Int) - 1)).toNat
      let c := (randBigInt (rand (pos + 1)) 1 ((n : Int) - 1)).toNat
      match rhoInner n c fuel x0 x0 with
      | none => none
      | some g => if g = n then pollardRho rand fuel (pos + 2) n else some (g, pos + 2)

/-! ## The orchestrator `factorize` -/

/-- `factors[p] = (factors[p] || 0) + 1` on a JS object: an existing key keeps
its position, a new key is appended (JS string-keyed insertion order). -/
def addFactor : List (Nat × Nat) → Nat → List (Nat × Nat)
  | [], p => [(p, 1)]
  | (q, e) :: rest, p =>
    if q = p then (q, e + 1) :: rest else (q, e) :: addFactor rest p

/-- `while (n % p === 0n) { factors[p] = (factors[p] || 0) + 1; n /= p; }`.
For `p ≥ 2` and `n ≥ 1` at most `log₂ n < n + 1` iterations happen, so fuel
`n + 1` suffices there; `none` models the divergence the JS loop exhibits for
`n = 0` or `p = 1` (never reached with the sieve's primes). -/
def divideOut : Nat → Nat → Nat → List (Nat × Nat) → Option (List (Nat × Nat) × Nat)
  | 0, _, _, _ => none
  | fuel + 1, p, n, factors =>
    if n % p = 0 then divideOut fuel p (n / p) (addFactor factors p) else some (factors, n)

/-- Trial-division phase of `factorize`:
`for (const p of smallPrimes) { if (p * p > n) break; while (n % p === 0n) ... }`. -/
def trialDivide : List Nat → Nat → List (Nat × Nat) → Option (List (Nat × Nat) × Nat)
  | [], n, factors => some (factors, n)
  | p :: ps, n, factors =>
    if p * p > n then some (factors, n)
    else
      match divideOut (n + 1) p n factors with
      | none => none
      | some pr => trialDivide ps pr.2 pr.1

/-- One iteration of the work-stack loop of `factorize`, acting on the popped
`target`: discard `1`; record a target certified prime by the oracle;
otherwise split via `pollardRho` and push both parts
(`stack.push(factor); stack.push(target / factor)` — so `target / factor`
ends up on top).  Returns the new stack, factors and stream position. -/
def stackStep (rand : Nat → Nat) (rhoFuel pos target : Nat) (stack : List Nat)
    (factors : List (Nat × Nat)) : Option (List Nat × List (Nat × Nat) × Nat) :=
  if target = 1 then some (stack, factors, pos)
  else
    let pr := isPrimeMillerRabin rand pos target 5
    if pr.1 then some (stack, addFactor factors target, pr.2)
    else
      match pollardRho rand rhoFuel pr.2 target with
      | none => none
      | some fp => some (target / fp.1 :: fp.1 :: stack, factors, fp.2)

/-- The `while (stack.length > 0)` loop of `factorize`; the list head is the
stack top. -/
def stackLoop (rand : Nat → Nat) : Nat → Nat → List Nat → List (Nat × Nat) →
    Option (List (Nat × Nat))
  | _, _, [], factors => some factors
  | 0, _, _ :: _, _ => none
  | fuel + 1, pos, target :: stack, factors =>
    match stackStep rand fuel pos target stack factors with
    | none => none
    | some st => stackLoop rand fuel st.2.2 st.1 st.2.1

/-- Continuation of `factorize` after trial division: `if (n === 1n) return
factors;` else run the work stack on the remainder (`const stack = [n]`). -/
def afterTrial (rand : Nat → Nat) (fuel : Nat) (pr : List (Nat × Nat) × Nat) :
    Option (List (Nat × Nat)) :=
  if pr.2 = 1 then some pr.1 else stackLoop rand fuel 0 [pr.2] pr.1

/-- `factorize(n)` from worker.js: trial division by the cached `smallPrimes`,
then the work-stack reduction of the remainder. -/
def factorize (rand : Nat → Nat) (fuel n : Nat) : Option (List (Nat × Nat)) :=
  (trialDivide smallPrimes n []).bind (afterTrial rand fuel)

/-! ## Result presentation and products -/

/-- Product of `prime ^ exponent` over an association-list factor multiset. -/
def prodF (factors : List (Nat × Nat)) : Nat :=
  factors.foldr (fun pe acc => pe.1 ^ pe.2 * acc) 1

/-- Product of the values on the work stack. -/
def prodL (stack : List Nat) : Nat := stack.foldr (fun x acc => x * acc) 1

/-- Insertion into a key-ascending list. -/
def insertAsc (x : Nat × Nat) : List (Nat × Nat) → List (Nat × Nat)
  | [] => [x]
  | y :: ys => if x.1 ≤ y.1 then x :: y :: ys else y :: insertAsc x ys

/-- Insertion sort by key, ascending. -/
def sortAsc : List (Nat × Nat) → List (Nat × Nat)
  | [] => []
  | x :: xs => insertAsc x (sortAsc xs)

/-- ECMAScript own-property-key iteration order of the returned object
(ECMA-262 `OrdinaryOwnPropertyKeys`): keys that are array indices — canonical
numeric strings whose value is below `2^32 - 1` — come first in ascending
numeric order; all other string keys follow in insertion order.  The factor
object's keys are the decimal strings of the primes, so a prime key is an
array index exactly when it is `< 4294967295`. -/
def jsKeyOrder (factors : List (Nat × Nat)) : List (Nat × Nat) :=
  sortAsc (factors.filter (fun pe => pe.1 < 4294967295)) ++
    factors.filter (fun pe => ¬ pe.1 < 4294967295)

/-- Adjacent keys of an association list strictly increase (Bool check). -/
def ascKeysB : List (Nat × Nat) → Bool
  | [] => true
  | [_] => true
  | x :: y :: rest => decide (x.1 < y.1) && ascKeysB (y :: rest)

/-- The keys of an association list appear in strictly ascending order. -/
def ascKeys (factors : List (Nat × Nat)) : Prop := ascKeysB factors = true

/-! ## Message handler -/

/-- ASCII whitespace stripped by the ECMAScript `StringToBigInt` conversion
(the engine's inputs are ASCII; Unicode space code points are not modelled). -/
def isJsSpace (ch : Char) : Bool :=
  ch = ' ' || ch = '\t' || ch = '\n' || ch = '\r' || ch = '\x0b' || ch = '\x0c'

/-- A decimal digit `0`–`9` (code points 48–57). -/
def isDecDigit (ch : Char) : Bool :=
  decide (48 ≤ ch.toNat) && decide (ch.toNat ≤ 57)

/-- Numeric value of a digit character in the given base, if valid
(`0`–`9`, `a`–`f`, `A`–`F`). -/
def digitVal (base : Nat) (ch : Char) : Option Nat :=
  let v : Nat :=
    if isDecDigit ch then ch.toNat - 48
    else if 97 ≤ ch.toNat ∧ ch.toNat ≤ 102 then ch.toNat - 87
    else if 65 ≤ ch.toNat ∧ ch.toNat ≤ 70 then ch.toNat - 55
    else 99
  if v < base then some v else none

/-- Value of a non-empty digit string in the given base. -/
def parseDigitsAux (base : Nat) (acc : Nat) : List Char → Option Nat
  | [] => some acc
  | ch :: rest =>
    match digitVal base ch with
    | none => none
    | some v => parseDigitsAux base (acc * base + v) rest

/-- `DecimalDigits` / `BinaryDigits` / `OctalDigits` / `HexDigits`: at least
one digit is required. -/
def parseDigits (base : Nat) : List Char → Option Nat
  | [] => none
  | c :: rest => parseDigitsAux base 0 (c :: rest)

/-- Model of the ECMAScript `StringToBigInt` conversion performed by
`BigInt(inputStr)` in the handler (ECMA-262, `StringIntegerLiteral` grammar,
ASCII inputs): optional whitespace around either nothing (yielding `0n`), a
`0b`/`0o`/`0x`-prefixed unsigned literal, or an optionally signed decimal
digit sequence; everything else is a `SyntaxError`, modelled as `none`. -/
def jsStringToBigInt (s : String) : Option Int :=
  let cs := ((s.toList.dropWhile isJsSpace).reverse.dropWhile isJsSpace).reverse
  match cs with
  | [] => some 0
  | [c] => (parseDigits 10 [c]).map Int.ofNat
  | c1 :: c2 :: rest =>
    if c1 = '0' ∧ (c2 = 'b' ∨ c2 = 'B') then (parseDigits 2 rest).map Int.ofNat
    else if c1 = '0' ∧ (c2 = 'o' ∨ c2 = 'O') then (parseDigits 8 rest).map Int.ofNat
    else if c1 = '0' ∧ (c2 = 'x' ∨ c2 = 'X') then (parseDigits 16 rest).map Int.ofNat
    else if c1 = '+' then (parseDigits 10 (c2 :: rest)).map Int.ofNat
    else if c1 = '-' then (parseDigits 10 (c2 :: rest)).map (fun v => -(Int.ofNat v))
    else (parseDigits 10 (c1 :: c2 :: rest)).map Int.ofNat

/-- The two message shapes posted back by the handler: `status: 'success'`
with the echoed input and the factor object, or `status: 'error'` with a
message (payload not modelled). -/
inductive Response
  | success (original : String) (factors : List (Nat × Nat))
  | error
deriving DecidableEq

/-- `factorize` lifted to the (possibly negative) parse result.  Negative
inputs are outside the engine's specified domain (§6: non-negative integers);
their JS behaviour (truncated negative arithmetic) is not modelled and is
mapped to `none`, like divergence. -/
def factorizeInt (rand : Nat → Nat) (fuel : Nat) (n : Int) : Option (List (Nat × Nat)) :=
  if n < 0 then none else factorize rand fuel n.toNat

/-- `self.onmessage` from worker.js: `BigInt(inputStr)` inside `try`, then
`factorize`; post `success` with the echoed input, or post the error message
when parsing throws.  `none` = no response (divergence / unmodelled domain). -/
def onmessage (rand : Nat → Nat) (fuel : Nat) (inputStr : String) : Option Response :=
  match jsStringToBigInt inputStr with
  | none => some Response.error
  | some n => (factorizeInt rand fuel n).map (Response.success inputStr)

/-- Spec-side notion (spec §6): the input is "a decimal-digit string
representing the integer to factor" — a non-empty string of decimal digits,
i.e. a plain non-negative decimal integer. -/
def isDecimalDigitString (s : String) : Bool :=
  !s.toList.isEmpty && s.toList.all isDecDigit

/-! ## Concrete data for the counterexample runs -/

/-- `q9 = 4295144257`, a prime just above `2^32` with smooth `q9 - 1`. -/
def q9 : Nat := 4295144257

/-- `r9 = 4295155201`, a prime just above `2^32` with smooth `r9 - 1`. -/
def r9 : Nat := 4295155201

/-- `n9 = q9 * r9`, a semiprime with both factors above the trial-division
bound and above the array-index key range. -/
def n9 : Nat := q9 * r9

/-- Random stream for the `n9` factorization run: position 0 yields the
Miller–Rabin witness `a = 2` (which certifies `n9` composite), positions 1
and 2 make Pollard's rho draw `x = q9` and `c = q9` (one walk step then
yields the factor `q9`); all later draws are irrelevant. -/
def rand9 : Nat → Nat :=
  fun pos => if pos = 1 then q9 - 2 else if pos = 2 then q9 - 1 else 0

/-- Adversarial random stream: position 0 yields witness `a = 2`; every rho
attempt draws `x = 2` and `c = n9 - 2`, making `2` a fixed point of the walk,
so every attempt ends in `g = n` and the retry loop never terminates. -/
def randFix : Nat → Nat :=
  fun pos => if pos = 0 then 0 else if pos % 2 = 1 then 0 else n9 - 3

/-! ## Correctness of the numeric primitives -/

theorem gcdAux_eq_gcd : ∀ fuel a b, b ≤ fuel → gcdAux fuel a b = Nat.gcd a b := by
  intro fuel
  induction fuel with
  | zero =>
    intro a b hb
    have hb0 : b = 0 := Nat.le_zero.mp hb
    subst hb0
    simp [gcdAux]
  | succ n ih =>
    intro a b hb
    by_cases h : 0 < b
    · have hlt : a % b < b := Nat.mod_lt a h
      have hle : a % b ≤ n := Nat.lt_succ_iff.mp (Nat.lt_of_lt_of_le hlt hb)
      rw [gcdAux, if_pos h, ih b (a % b) hle, Nat.gcd_comm b (a % b),
        ← Nat.gcd_rec b a, Nat.gcd_comm b a]
    · have hb0 : b = 0 := Nat.eq_zero_of_not_pos h
      subst hb0
      simp [gcdAux]

theorem gcd_eq_gcd (a b : Nat) : gcd a b = Nat.gcd a b :=
  gcdAux_eq_gcd b a b (Nat.le_refl b)

theorem modPowAux_exp_zero : ∀ fuel res base mod, modPowAux fuel res base 0 mod = res := by
  intro fuel res base mod
  cases fuel <;> simp [modPowAux]

theorem mulPow_mod (a b k m : Nat) : a * (b % m) ^ k % m = a * b ^ k % m := by
  rw [Nat.mul_mod a ((b % m) ^ k) m, ← Nat.pow_mod, ← Nat.mul_mod]

theorem modPowAux_spec : ∀ fuel res base exp mod, 1 ≤ exp → exp ≤ fuel →
    modPowAux fuel res base exp mod = res * base ^ exp % mod := by
  intro fuel
  induction fuel with
  | zero => intro res base exp mod h1 h2; omega
  | succ n ih =>
    intro res base exp mod h1 h2
    rw [modPowAux, if_pos (by omega : 0 < exp)]
    by_cases hhalf : exp / 2 = 0
    · have hexp : exp = 1 := by omega
      subst hexp
      norm_num [modPowAux_exp_zero]
    · have hpos : 1 ≤ exp / 2 := Nat.pos_of_ne_zero hhalf
      have hle : exp / 2 ≤ n := by
        have : exp / 2 < exp := Nat.div_lt_self (by omega) (by norm_num)
        omega
      rw [ih _ _ _ _ hpos hle]
      by_cases hodd : exp % 2 = 1
      · rw [if_pos hodd, Nat.mod_mul_mod, mulPow_mod]
        have hsplit : exp = 2 * (exp / 2) + 1 := by omega
        congr 1
        conv_rhs => rw [hsplit]
        ring
      · rw [if_neg hodd, mulPow_mod]
        have hsplit : exp = 2 * (exp / 2) := by omega
        congr 1
        conv_rhs => rw [hsplit]
        ring

/-- `modPow` computes `base ^ exp % mod` whenever `mod ≥ 2`, or `mod ≥ 1` with
`exp ≥ 1`.  (For `mod = 1` and `exp = 0` the code returns its initial
accumulator `1` instead of `0 = base^0 % 1`.) -/
theorem modPow_eq (base exp mod : Nat) (_hm : 1 ≤ mod) (h : 2 ≤ mod ∨ 1 ≤ exp) :
    modPow base exp mod = base ^ exp % mod := by
  by_cases hexp : 1 ≤ exp
  · rw [modPow, modPowAux_spec exp 1 (base % mod) exp mod hexp (Nat.le_refl exp),
      one_mul, ← Nat.pow_mod]
  · have hexp0 : exp = 0 := by omega
    have hm2 : 2 ≤ mod := by
      rcases h with h | h
      · exact h
      · omega
    subst hexp0
    rw [modPow, modPowAux_exp_zero, pow_zero, Nat.mod_eq_of_lt hm2]

theorem split2Aux_spec : ∀ fuel d, 1 ≤ d → d ≤ fuel →
    d = (split2Aux fuel d).1 * 2 ^ (split2Aux fuel d).2 ∧ (split2Aux fuel d).1 % 2 = 1 := by
  intro fuel
  induction fuel with
  | zero => intro d h1 h2; omega
  | succ n ih =>
    intro d h1 h2
    by_cases he : d % 2 = 0
    · have hcond : d % 2 = 0 ∧ 0 < d := ⟨he, by omega⟩
      have hd2 : 1 ≤ d / 2 := by omega
      have hd2n : d / 2 ≤ n := by
        have : d / 2 < d := Nat.div_lt_self (by omega) (by norm_num)
        omega
      have hih := ih (d / 2) hd2 hd2n
      rw [split2Aux, if_pos hcond]
      refine ⟨?_, hih.2⟩
      have hd : d = 2 * (d / 2) := by omega
      calc d = 2 * (d / 2) := hd
        _ = 2 * ((split2Aux n (d / 2)).1 * 2 ^ (split2Aux n (d / 2)).2) := by rw [← hih.1]
        _ = (split2Aux n (d / 2)).1 * 2 ^ ((split2Aux n (d / 2)).2 + 1) := by ring
    · rw [split2Aux, if_neg (by tauto)]
      exact ⟨by simp, by omega⟩

theorem split2_spec (d : Nat) (h : 1 ≤ d) :
    d = (split2 d).1 * 2 ^ (split2 d).2 ∧ (split2 d).1 % 2 = 1 :=
  split2Aux_spec d d h (Nat.le_refl d)

/-- The value returned by `randBigInt` always lies in `[min, max)` when `min < max`,
for every raw value of the random source. -/
theorem randBigInt_range (randNum : Nat) (min max : Int) (h : min < max) :
    min ≤ randBigInt randNum min max ∧ randBigInt randNum min max < max := by
  have hpos : 0 < max - min := by omega
  have h0 : (0 : Int) ≤ (randNum : Int) := Int.ofNat_nonneg randNum
  have hnn : 0 ≤ Int.tmod randNum (max - min) := Int.tmod_nonneg _ h0
  have hlt : Int.tmod randNum (max - min) < max - min := Int.tmod_lt_of_pos _ hpos
  constructor
  · unfold randBigInt; omega
  · unfold randBigInt; omega

/-- On `Nat` endpoints, `randBigInt` computes `randNum % (max - min) + min`. -/
theorem randBigInt_toNat (randNum mn mx : Nat) (h : mn < mx) :
    (randBigInt randNum (mn : Int) (mx : Int)).toNat = randNum % (mx - mn) + mn := by
  have hc : (mx : Int) - (mn : Int) = ((mx - mn : Nat) : Int) := by
    push_cast [Nat.cast_sub (Nat.le_of_lt h)]
    ring
  rw [randBigInt, hc, ← Int.ofNat_tmod]
  rw [← Nat.cast_add, Int.toNat_ofNat]

/-! ## Sieve lemmas -/

/-- The marking loop never touches positions below the current index. -/
theorem sieveMarkLoop_below (limit p : Nat) :
    ∀ t i, ∀ j < i, sieveMarkLoop limit p t i j = t j := by
  intro t i
  induction t, i using sieveMarkLoop.induct limit p with
  | case1 t i hcond ih =>
    intro j hj
    rw [sieveMarkLoop, dif_pos hcond, ih j (by omega)]
    simp only [setFalse, if_neg (by omega : ¬ j = i)]
  | case2 t i hcond =>
    intro j hj
    rw [sieveMarkLoop, dif_neg hcond]

/-- The marking loop only clears bits: a surviving `true` was `true` before. -/
theorem sieveMarkLoop_mono (limit p : Nat) :
    ∀ t i j, sieveMarkLoop limit p t i j = true → t j = true := by
  intro t i
  induction t, i using sieveMarkLoop.induct limit p with
  | case1 t i hcond ih =>
    intro j hj
    rw [sieveMarkLoop, dif_pos hcond] at hj
    have hset := ih j hj
    by_cases hji : j = i
    · subst hji
      simp [setFalse] at hset
    · simpa [setFalse, hji] using hset
  | case2 t i hcond =>
    intro j hj
    rwa [sieveMarkLoop, dif_neg hcond] at hj

/-- Starting at a multiple of `p`, the marking loop only clears multiples of
`p`. -/
theorem sieveMarkLoop_not_dvd (limit p : Nat) :
    ∀ t i j, p ∣ i → ¬ p ∣ j → sieveMarkLoop limit p t i j = t j := by
  intro t i
  induction t, i using sieveMarkLoop.induct limit p with
  | case1 t i hcond ih =>
    intro j hi hj
    have hji : j ≠ i := fun heq => hj (heq ▸ hi)
    rw [sieveMarkLoop, dif_pos hcond, ih j (Dvd.dvd.add hi dvd_rfl) hj]
    simp only [setFalse, if_neg hji]
  | case2 t i hcond =>
    intro j _ _
    rw [sieveMarkLoop, dif_neg hcond]

/-- The marking loop clears its start index. -/
theorem sieveMarkLoop_start (limit p : Nat) (t : Nat → Bool) (i : Nat)
    (h1 : i ≤ limit) (h2 : 0 < p) : sieveMarkLoop limit p t i i = false := by
  rw [sieveMarkLoop, dif_pos ⟨h1, h2⟩, sieveMarkLoop_below limit p _ _ i (by omega)]
  simp [setFalse]

/-- The outer sieve loop only clears bits. -/
theorem sieveOuter_mono (limit : Nat) :
    ∀ t p j, sieveOuter limit t p j = true → t j = true := by
  intro t p
  induction t, p using sieveOuter.induct limit with
  | case1 t p hcond ih =>
    intro j hj
    simp only [dite_eq_ite] at ih
    rw [sieveOuter, dif_pos hcond] at hj
    have hstep := ih j hj
    by_cases htp : t p = true
    · rw [if_pos htp] at hstep
      exact sieveMarkLoop_mono limit p t (p * p) j hstep
    · rwa [if_neg htp] at hstep
  | case2 t p hcond =>
    intro j hj
    rwa [sieveOuter, dif_neg hcond] at hj

/-- A cleared bit stays cleared through the outer loop. -/
theorem sieveOuter_false (limit : Nat) (t : Nat → Bool) (p j : Nat)
    (h : t j = false) : sieveOuter limit t p j = false := by
  cases hres : sieveOuter limit t p j with
  | false => rfl
  | true => rw [sieveOuter_mono limit t p j hres] at h; exact h.symm ▸ rfl

/-- The outer sieve loop, started at any `p ≥ 2`, never clears a prime index. -/
theorem sieveOuter_prime (limit : Nat) :
    ∀ t p j, 2 ≤ p → Nat.Prime j → sieveOuter limit t p j = t j := by
  intro t p
  induction t, p using sieveOuter.induct limit with
  | case1 t p hcond ih =>
    intro j hp hj
    simp only [dite_eq_ite] at ih
    rw [sieveOuter, dif_pos hcond, ih j (by omega) hj]
    by_cases htp : t p = true
    · rw [if_pos htp]
      by_cases hdvd : p ∣ j
      · rcases (Nat.Prime.eq_one_or_self_of_dvd hj p hdvd) with h1 | h1
        · omega
        · rw [h1]
          have hlt : j < j * j := by nlinarith [hj.two_le]
          exact sieveMarkLoop_below limit j t (j * j) j hlt
      · exact sieveMarkLoop_not_dvd limit p t (p * p) j (Dvd.intro p rfl) hdvd
    · rw [if_neg htp]
  | case2 t p hcond =>
    intro j _ _
    rw [sieveOuter, dif_neg hcond]

/-- Members of the collection are in range and marked in the table. -/
theorem sieveCollect_mem (limit : Nat) (t : Nat → Bool) :
    ∀ i, ∀ j ∈ sieveCollect limit t i, i ≤ j ∧ j ≤ limit ∧ t j = true := by
  intro i
  induction i using sieveCollect.induct limit t with
  | case1 i hle hti ih =>
    intro j hj
    rw [sieveCollect, dif_pos hle, if_pos hti] at hj
    rcases List.mem_cons.mp hj with hji | hji
    · subst hji; exact ⟨Nat.le_refl _, hle, hti⟩
    · have hr := ih j hji
      exact ⟨by omega, hr.2⟩
  | case2 i hle hti ih =>
    intro j hj
    rw [sieveCollect, dif_pos hle, if_neg hti] at hj
    have hr := ih j hj
    exact ⟨by omega, hr.2⟩
  | case3 i hle =>
    intro j hj
    rw [sieveCollect, dif_neg hle] at hj
    simp at hj

/-- Unfolding step: a marked index is collected. -/
theorem sieveCollect_cons (limit : Nat) (t : Nat → Bool) (i : Nat)
    (h1 : i ≤ limit) (h2 : t i = true) :
    sieveCollect limit t i = i :: sieveCollect limit t (i + 1) := by
  rw [sieveCollect, dif_pos h1, if_pos h2]

/-- Unfolding step: an unmarked index is skipped. -/
theorem sieveCollect_skip (limit : Nat) (t : Nat → Bool) (i : Nat)
    (h1 : i ≤ limit) (h2 : t i = false) :
    sieveCollect limit t i = sieveCollect limit t (i + 1) := by
  rw [sieveCollect, dif_pos h1, if_neg (by simp [h2])]

theorem sieveInit_zero : sieveInit 0 = false := by simp [sieveInit, setFalse]

theorem sieveInit_one : sieveInit 1 = false := by simp [sieveInit, setFalse]

theorem sieveInit_of_two_le (j : Nat) (h : 2 ≤ j) : sieveInit j = true := by
  simp only [sieveInit, setFalse]
  rw [if_neg (by omega), if_neg (by omega)]

/-- The fully sieved table of the worker. -/
theorem sieveTable_prime (j : Nat) (hj : Nat.Prime j) :
    sieveOuter 100000 sieveInit 2 j = true := by
  rw [sieveOuter_prime 100000 sieveInit 2 j (Nat.le_refl 2) hj]
  exact sieveInit_of_two_le j hj.two_le

theorem sieveTable_zero : sieveOuter 100000 sieveInit 2 0 = false :=
  sieveOuter_false 100000 sieveInit 2 0 sieveInit_zero

theorem sieveTable_one : sieveOuter 100000 sieveInit 2 1 = false :=
  sieveOuter_false 100000 sieveInit 2 1 sieveInit_one

/-- The multiples of 2 marked in the very first outer iteration: the table
after that iteration is `sieveOuter` applied to the table with `4, 6, ...`
cleared. -/
theorem sieveTable_step2 :
    sieveOuter 100000 sieveInit 2 =
      sieveOuter 100000 (sieveMarkLoop 100000 2 sieveInit 4) 3 := by
  rw [sieveOuter]
  rw [dif_pos (by norm_num : (2 : Nat) * 2 ≤ 100000)]
  rw [if_pos (sieveInit_of_two_le 2 (Nat.le_refl 2))]

theorem sieveTable_four : sieveOuter 100000 sieveInit 2 4 = false := by
  rw [sieveTable_step2]
  exact sieveOuter_false 100000 _ 3 4
    (sieveMarkLoop_start 100000 2 sieveInit 4 (by norm_num) (by norm_num))

theorem sieveTable_six : sieveOuter 100000 sieveInit 2 6 = false := by
  rw [sieveTable_step2]
  refine sieveOuter_false 100000 _ 3 6 ?_
  rw [sieveMarkLoop, dif_pos ⟨by norm_num, by norm_num⟩]
  exact sieveMarkLoop_start 100000 2 _ 6 (by norm_num) (by norm_num)

/-- `smallPrimes` starts `2, 3, 5, 7`; the tail contains only numbers `≥ 8`. -/
theorem smallPrimes_start :
    smallPrimes =
      2 :: 3 :: 5 :: 7 :: sieveCollect 100000 (sieveOuter 100000 sieveInit 2) 8 := by
  show sieveCollect 100000 (sieveOuter 100000 sieveInit 2) 0 = _
  rw [sieveCollect_skip 100000 _ 0 (by norm_num) sieveTable_zero,
    sieveCollect_skip 100000 _ 1 (by norm_num) sieveTable_one,
    sieveCollect_cons 100000 _ 2 (by norm_num) (sieveTable_prime 2 (by norm_num)),
    sieveCollect_cons 100000 _ 3 (by norm_num) (sieveTable_prime 3 (by norm_num)),
    sieveCollect_skip 100000 _ 4 (by norm_num) sieveTable_four,
    sieveCollect_cons 100000 _ 5 (by norm_num) (sieveTable_prime 5 (by norm_num)),
    sieveCollect_skip 100000 _ 6 (by norm_num) sieveTable_six,
    sieveCollect_cons 100000 _ 7 (by norm_num) (sieveTable_prime 7 (by norm_num))]

/-- Every member of `smallPrimes` lies in `[2, 100000]`. -/
theorem smallPrimes_mem (p : Nat) (h : p ∈ smallPrimes) : 2 ≤ p ∧ p ≤ 100000 := by
  have hm := sieveCollect_mem 100000 (sieveOuter 100000 sieveInit 2) 0 p h
  refine ⟨?_, hm.2.1⟩
  by_contra hlt
  interval_cases p
  · rw [sieveTable_zero] at hm; exact absurd hm.2.2 (by simp)
  · rw [sieveTable_one] at hm; exact absurd hm.2.2 (by simp)

/-! ## Miller–Rabin soundness (no false negatives) -/

/-- Squaring once mod `n` doubles the power of two in the exponent. -/
theorem sq_mod_pow (x j n : Nat) (hj : 1 ≤ j) :
    (x * x % n) ^ 2 ^ (j - 1) % n = x ^ 2 ^ j % n := by
  rw [← Nat.pow_mod]
  have hexp : 2 * 2 ^ (j - 1) = 2 ^ j := by
    conv_rhs => rw [show j = (j - 1) + 1 from by omega]
    rw [pow_succ]
    ring
  have harith : (x * x) ^ 2 ^ (j - 1) = x ^ 2 ^ j := by
    rw [← pow_two, ← pow_mul, hexp]
  rw [harith]

/-- The inner loop passes as soon as some iterated square hits `n - 1`. -/
theorem mrInner_of_exists (n : Nat) :
    ∀ count x, (∃ j, 1 ≤ j ∧ j ≤ count ∧ x ^ 2 ^ j % n = n - 1) →
      mrInner n count x = true := by
  intro count
  induction count with
  | zero =>
    intro x hex
    rcases hex with ⟨j, hj1, hj2, _⟩
    omega
  | succ m ih =>
    intro x hex
    rcases hex with ⟨j, hj1, hj2, hj3⟩
    rw [mrInner]
    by_cases h1 : x * x % n = n - 1
    · simp [h1]
    · simp only [if_neg h1]
      apply ih
      have hj2' : 2 ≤ j := by
        by_contra hlt
        have hj1' : j = 1 := by omega
        apply h1
        rw [← hj3, hj1', pow_one, pow_two]
      exact ⟨j - 1, by omega, by omega, by rw [sq_mod_pow x j n hj1]; exact hj3⟩

/-- In `ZMod p` for `p` prime, if `b^(d·2^r) = 1` then either `b^d = 1`
already, or some intermediate square root is `-1`. -/
theorem zmod_square_chain (p : Nat) [Fact (Nat.Prime p)] (b : ZMod p) (d : Nat) :
    ∀ r, b ^ (d * 2 ^ r) = 1 → b ^ d = 1 ∨ ∃ j, j < r ∧ b ^ (d * 2 ^ j) = -1 := by
  intro r
  induction r with
  | zero =>
    intro h
    left
    simpa using h
  | succ m ih =>
    intro h
    have hsq : b ^ (d * 2 ^ m) * b ^ (d * 2 ^ m) = 1 := by
      rw [← pow_add]
      have : d * 2 ^ m + d * 2 ^ m = d * 2 ^ (m + 1) := by rw [pow_succ]; ring
      rw [this]
      exact h
    rcases mul_self_eq_one_iff.mp hsq with h1 | h1
    · rcases ih h1 with h2 | h2
      · left; exact h2
      · rcases h2 with ⟨j, hj, h3⟩
        right; exact ⟨j, by omega, h3⟩
    · right; exact ⟨m, by omega, h1⟩

/-- Casting a reduced power into `ZMod p`. -/
theorem cast_pow_mod (p a e : Nat) : ((a ^ e % p : Nat) : ZMod p) = (a : ZMod p) ^ e := by
  rw [ZMod.natCast_mod, Nat.cast_pow]

/-- `p - 1` casts to `-1` in `ZMod p`. -/
theorem cast_pred (p : Nat) (hp : 1 ≤ p) : ((p - 1 : Nat) : ZMod p) = -1 := by
  rw [Nat.cast_sub hp, ZMod.natCast_self]
  simp

/-- A `ZMod p` equation between casts pins down the reduced `Nat` value. -/
theorem mod_eq_of_cast_eq (p x v : Nat) (hv : v < p)
    (h : ((x : Nat) : ZMod p) = ((v : Nat) : ZMod p)) : x % p = v := by
  have hmod : x % p = v % p := (ZMod.natCast_eq_natCast_iff x v p).mp h
  rwa [Nat.mod_eq_of_lt hv] at hmod

/-- Miller–Rabin soundness core: for a prime `p` with `p - 1 = d·2^r` and a
base `a` not divisible by `p`, either `a^d ≡ 1 (mod p)` or some
`a^(d·2^j) ≡ p - 1 (mod p)` with `j < r`. -/
theorem mr_witness_passes (p d r a : Nat) (hp : Nat.Prime p)
    (hdr : p - 1 = d * 2 ^ r) (ha : ¬ p ∣ a) :
    a ^ d % p = 1 ∨ ∃ j, j < r ∧ a ^ (d * 2 ^ j) % p = p - 1 := by
  haveI : Fact (Nat.Prime p) := ⟨hp⟩
  have hb : (a : ZMod p) ≠ 0 := by
    rw [Ne, ZMod.natCast_zmod_eq_zero_iff_dvd]
    exact ha
  have hferm : (a : ZMod p) ^ (p - 1) = 1 := ZMod.pow_card_sub_one_eq_one hb
  rw [hdr] at hferm
  rcases zmod_square_chain p (a : ZMod p) d r hferm with h | h
  · left
    have hcast : ((a ^ d : Nat) : ZMod p) = ((1 : Nat) : ZMod p) := by
      rw [Nat.cast_pow, h, Nat.cast_one]
    exact mod_eq_of_cast_eq p (a ^ d) 1 hp.one_lt hcast
  · rcases h with ⟨j, hj, hpow⟩
    right
    refine ⟨j, hj, ?_⟩
    have hp1 : p - 1 < p := by have := hp.one_lt; omega
    apply mod_eq_of_cast_eq p (a ^ (d * 2 ^ j)) (p - 1) hp1
    rw [Nat.cast_pow, hpow, cast_pred p (by have := hp.one_lt; omega)]

/-- For a prime `n ≥ 5` every Miller–Rabin round passes, whatever the
witness drawn from the stream. -/
theorem mrRound_of_prime (rand : Nat → Nat) (pos n : Nat) (hn : Nat.Prime n)
    (h5 : 5 ≤ n) :
    mrRound rand pos n (split2 (n - 1)).1 (split2 (n - 1)).2 = true := by
  have hodd : n % 2 = 1 := by
    rcases Nat.mod_two_eq_zero_or_one n with h | h
    · exfalso
      rcases hn.eq_one_or_self_of_dvd 2 (Nat.dvd_of_mod_eq_zero h) with h2 | h2 <;> omega
    · exact h
  have hsplit := split2_spec (n - 1) (by omega)
  set d := (split2 (n - 1)).1 with hd
  set r := (split2 (n - 1)).2 with hr
  have hd1 : 1 ≤ d := by
    rcases Nat.eq_zero_or_pos d with h0 | h0
    · exfalso; rw [h0] at hsplit; omega
    · exact h0
  have hr1 : 1 ≤ r := by
    rcases Nat.eq_zero_or_pos r with h0 | h0
    · exfalso
      have heq := hsplit.1
      rw [h0, pow_zero, Nat.mul_one] at heq
      have hdodd := hsplit.2
      omega
    · exact h0
  -- the drawn witness
  have hcast : ((n : Int) - 2) = ((n - 2 : Nat) : Int) := by
    push_cast [Nat.cast_sub (show 2 ≤ n by omega)]
    ring
  have ha : (randBigInt (rand pos) 2 ((n : Int) - 2)).toNat
      = rand pos % (n - 2 - 2) + 2 := by
    rw [hcast]
    exact randBigInt_toNat (rand pos) 2 (n - 2) (by omega)
  have hamem : 2 ≤ (randBigInt (rand pos) 2 ((n : Int) - 2)).toNat ∧
      (randBigInt (rand pos) 2 ((n : Int) - 2)).toNat < n := by
    rw [ha]
    constructor
    · omega
    · have : rand pos % (n - 2 - 2) < n - 2 - 2 := Nat.mod_lt _ (by omega)
      omega
  set a := (randBigInt (rand pos) 2 ((n : Int) - 2)).toNat with haset
  have hndvd : ¬ n ∣ a := by
    intro hdvd
    have := Nat.le_of_dvd (by omega) hdvd
    omega
  have hx : modPow a d n = a ^ d % n :=
    modPow_eq a d n (by omega) (Or.inl (by omega))
  rw [mrRound]
  simp only [← haset, hx]
  rcases mr_witness_passes n d r a hn hsplit.1 hndvd with hcase | hcase
  · rw [if_pos (Or.inl hcase)]
  · rcases hcase with ⟨j, hj, hpow⟩
    by_cases hbranch : a ^ d % n = 1 ∨ a ^ d % n = n - 1
    · rw [if_pos hbranch]
    · rw [if_neg hbranch]
      have hj1 : 1 ≤ j := by
        rcases Nat.eq_zero_or_pos j with h0 | h0
        · exfalso
          apply hbranch
          right
          rw [h0, pow_zero, Nat.mul_one] at hpow
          exact hpow
        · exact h0
      apply mrInner_of_exists
      refine ⟨j, hj1, by omega, ?_⟩
      rw [← Nat.pow_mod, ← pow_mul]
      exact hpow

/-- All `k` rounds pass on a prime `n ≥ 5`, consuming one stream value per
round. -/
theorem mrRounds_of_prime (rand : Nat → Nat) (n : Nat) (hn : Nat.Prime n)
    (h5 : 5 ≤ n) :
    ∀ k pos, mrRounds rand n (split2 (n - 1)).1 (split2 (n - 1)).2 pos k
      = (true, pos + k) := by
  intro k
  induction k with
  | zero => intro pos; rfl
  | succ m ih =>
    intro pos
    rw [mrRounds, if_pos (mrRound_of_prime rand pos n hn h5), ih (pos + 1)]
    have : pos + 1 + m = pos + (m + 1) := by omega
    rw [this]

/-- The primality oracle has no false negatives: a prime `n ≥ 5` is accepted
with the exact stream consumption `k`. -/
theorem isPrimeMR_prime_large (rand : Nat → Nat) (pos n k : Nat)
    (hn : Nat.Prime n) (h5 : 5 ≤ n) :
    isPrimeMillerRabin rand pos n k = (true, pos + k) := by
  have hodd : n % 2 = 1 := by
    rcases Nat.mod_two_eq_zero_or_one n with h | h
    · exfalso
      rcases hn.eq_one_or_self_of_dvd 2 (Nat.dvd_of_mod_eq_zero h) with h2 | h2 <;> omega
    · exact h
  rw [isPrimeMillerRabin, if_neg (by omega : ¬ n < 2),
    if_neg (by omega : ¬ (n = 2 ∨ n = 3)), if_neg (by omega : ¬ n % 2 = 0)]
  exact mrRounds_of_prime rand n hn h5 k pos

/-- The primality oracle has no false negatives, for every prime. -/
theorem isPrimeMR_prime (rand : Nat → Nat) (pos n k : Nat) (hn : Nat.Prime n) :
    (isPrimeMillerRabin rand pos n k).1 = true := by
  rcases Nat.lt_or_ge n 5 with h | h
  · have h2 := hn.two_le
    interval_cases n
    · rw [isPrimeMillerRabin, if_neg (by omega : ¬ (2 : Nat) < 2),
        if_pos (Or.inl rfl)]
    · rw [isPrimeMillerRabin, if_neg (by omega : ¬ (3 : Nat) < 2),
        if_pos (Or.inr rfl)]
    · exact absurd hn (by norm_num)
  · rw [isPrimeMR_prime_large rand pos n k hn h]

/-! ## Primality certificates for the counterexample primes -/

/-- Bridge from `ZMod` powers to the executable `modPow`. -/
theorem zmod_pow_bridge (n a e : Nat) (hn : 2 ≤ n) :
    ((a : Nat) : ZMod n) ^ e = ((modPow a e n : Nat) : ZMod n) := by
  rw [modPow_eq a e n (by omega) (Or.inl hn), ZMod.natCast_mod, Nat.cast_pow]

/-- A reduced value other than `1` does not cast to `1`. -/
theorem cast_ne_one (n v : Nat) (h2 : 2 ≤ n) (hv : v < n) (hne : v ≠ 1) :
    ((v : Nat) : ZMod n) ≠ 1 := by
  intro h
  have hmod : v % n = 1 := mod_eq_of_cast_eq n v 1 (by omega) (by rw [h, Nat.cast_one])
  rw [Nat.mod_eq_of_lt hv] at hmod
  exact hne hmod

/-- `q9 = 4295144257` is prime (Pratt certificate with generator 7,
`q9 - 1 = 2^6 · 3 · 13 · 19 · 41 · 47²`). -/
theorem q9_prime : Nat.Prime q9 := by
  have h2 : (2 : Nat) ≤ q9 := by norm_num [q9]
  apply lucas_primality q9 (((7 : Nat) : ZMod q9))
  · rw [zmod_pow_bridge q9 7 (q9 - 1) h2,
      (by decide : modPow 7 (q9 - 1) q9 = 1), Nat.cast_one]
  · intro l hl hldvd
    have hfact : q9 - 1 = 2 ^ 6 * (3 * (13 * (19 * (41 * 47 ^ 2)))) := by decide
    rw [hfact] at hldvd
    have hcases : l = 2 ∨ l = 3 ∨ l = 13 ∨ l = 19 ∨ l = 41 ∨ l = 47 := by
      rcases (Nat.Prime.dvd_mul hl).mp hldvd with h | h
      · exact Or.inl ((Nat.prime_dvd_prime_iff_eq hl Nat.prime_two).mp
          (hl.dvd_of_dvd_pow h))
      rcases (Nat.Prime.dvd_mul hl).mp h with h | h
      · exact Or.inr (Or.inl ((Nat.prime_dvd_prime_iff_eq hl (by norm_num)).mp h))
      rcases (Nat.Prime.dvd_mul hl).mp h with h | h
      · exact Or.inr (Or.inr (Or.inl
          ((Nat.prime_dvd_prime_iff_eq hl (by norm_num)).mp h)))
      rcases (Nat.Prime.dvd_mul hl).mp h with h | h
      · exact Or.inr (Or.inr (Or.inr (Or.inl
          ((Nat.prime_dvd_prime_iff_eq hl (by norm_num)).mp h))))
      rcases (Nat.Prime.dvd_mul hl).mp h with h | h
      · exact Or.inr (Or.inr (Or.inr (Or.inr (Or.inl
          ((Nat.prime_dvd_prime_iff_eq hl (by norm_num)).mp h)))))
      · exact Or.inr (Or.inr (Or.inr (Or.inr (Or.inr
          ((Nat.prime_dvd_prime_iff_eq hl (by norm_num)).mp
            (hl.dvd_of_dvd_pow h))))))
    rcases hcases with rfl | rfl | rfl | rfl | rfl | rfl
    · rw [zmod_pow_bridge q9 7 ((q9 - 1) / 2) h2]
      exact cast_ne_one q9 _ h2 (by decide) (by decide)
    · rw [zmod_pow_bridge q9 7 ((q9 - 1) / 3) h2]
      exact cast_ne_one q9 _ h2 (by decide) (by decide)
    · rw [zmod_pow_bridge q9 7 ((q9 - 1) / 13) h2]
      exact cast_ne_one q9 _ h2 (by decide) (by decide)
    · rw [zmod_pow_bridge q9 7 ((q9 - 1) / 19) h2]
      exact cast_ne_one q9 _ h2 (by decide) (by decide)
    · rw [zmod_pow_bridge q9 7 ((q9 - 1) / 41) h2]
      exact cast_ne_one q9 _ h2 (by decide) (by decide)
    · rw [zmod_pow_bridge q9 7 ((q9 - 1) / 47) h2]
      exact cast_ne_one q9 _ h2 (by decide) (by decide)

/-- `r9 = 4295155201` is prime (Pratt certificate with generator 44,
`r9 - 1 = 2^9 · 3 · 5² · 7 · 19 · 29²`). -/
theorem r9_prime : Nat.Prime r9 := by
  have h2 : (2 : Nat) ≤ r9 := by norm_num [r9]
  apply lucas_primality r9 (((44 : Nat) : ZMod r9))
  · rw [zmod_pow_bridge r9 44 (r9 - 1) h2,
      (by decide : modPow 44 (r9 - 1) r9 = 1), Nat.cast_one]
  · intro l hl hldvd
    have hfact : r9 - 1 = 2 ^ 9 * (3 * (5 ^ 2 * (7 * (19 * 29 ^ 2)))) := by decide
    rw [hfact] at hldvd
    have hcases : l = 2 ∨ l = 3 ∨ l = 5 ∨ l = 7 ∨ l = 19 ∨ l = 29 := by
      rcases (Nat.Prime.dvd_mul hl).mp hldvd with h | h
      · exact Or.inl ((Nat.prime_dvd_prime_iff_eq hl Nat.prime_two).mp
          (hl.dvd_of_dvd_pow h))
      rcases (Nat.Prime.dvd_mul hl).mp h with h | h
      · exact Or.inr (Or.inl ((Nat.prime_dvd_prime_iff_eq hl (by norm_num)).mp h))
      rcases (Nat.Prime.dvd_mul hl).mp h with h | h
      · exact Or.inr (Or.inr (Or.inl
          ((Nat.prime_dvd_prime_iff_eq hl (by norm_num)).mp
            (hl.dvd_of_dvd_pow h))))
      rcases (Nat.Prime.dvd_mul hl).mp h with h | h
      · exact Or.inr (Or.inr (Or.inr (Or.inl
          ((Nat.prime_dvd_prime_iff_eq hl (by norm_num)).mp h))))
      rcases (Nat.Prime.dvd_mul hl).mp h with h | h
      · exact Or.inr (Or.inr (Or.inr (Or.inr (Or.inl
          ((Nat.prime_dvd_prime_iff_eq hl (by norm_num)).mp h)))))
      · exact Or.inr (Or.inr (Or.inr (Or.inr (Or.inr
          ((Nat.prime_dvd_prime_iff_eq hl (by norm_num)).mp
            (hl.dvd_of_dvd_pow h))))))
    rcases hcases with rfl | rfl | rfl | rfl | rfl | rfl
    · rw [zmod_pow_bridge r9 44 ((r9 - 1) / 2) h2]
      exact cast_ne_one r9 _ h2 (by decide) (by decide)
    · rw [zmod_pow_bridge r9 44 ((r9 - 1) / 3) h2]
      exact cast_ne_one r9 _ h2 (by decide) (by decide)
    · rw [zmod_pow_bridge r9 44 ((r9 - 1) / 5) h2]
      exact cast_ne_one r9 _ h2 (by decide) (by decide)
    · rw [zmod_pow_bridge r9 44 ((r9 - 1) / 7) h2]
      exact cast_ne_one r9 _ h2 (by decide) (by decide)
    · rw [zmod_pow_bridge r9 44 ((r9 - 1) / 19) h2]
      exact cast_ne_one r9 _ h2 (by decide) (by decide)
    · rw [zmod_pow_bridge r9 44 ((r9 - 1) / 29) h2]
      exact cast_ne_one r9 _ h2 (by decide) (by decide)

/-! ## Pollard's rho lemmas -/

/-- The walk only ever reports a divisor of `n` different from 1. -/
theorem rhoInner_spec (n c : Nat) :
    ∀ fuel x y g, rhoInner n c fuel x y = some g → g ≠ 1 ∧ g ∣ n := by
  intro fuel
  induction fuel with
  | zero => intro x y g h; simp [rhoInner] at h
  | succ m ih =>
    intro x y g h
    simp only [rhoInner] at h
    split at h <;> split at h
    case isTrue.isTrue => exact ih _ _ g h
    case isTrue.isFalse hne =>
      have hg := Option.some.inj h
      subst hg
      exact ⟨hne, by rw [gcd_eq_gcd]; exact Nat.gcd_dvd_right _ n⟩
    case isFalse.isTrue => exact ih _ _ g h
    case isFalse.isFalse hne =>
      have hg := Option.some.inj h
      subst hg
      exact ⟨hne, by rw [gcd_eq_gcd]; exact Nat.gcd_dvd_right _ n⟩

/-- Partial correctness of `pollardRho`: an even `n` yields 2 immediately; an
odd `n ≥ 2` yields a nontrivial divisor — whatever the random stream. -/
theorem pollardRho_spec (rand : Nat → Nat) :
    ∀ fuel pos n g posr, 2 ≤ n → pollardRho rand fuel pos n = some (g, posr) →
      (n % 2 = 0 → g = 2) ∧ (n % 2 = 1 → g ∣ n ∧ 1 < g ∧ g < n) := by
  intro fuel
  induction fuel with
  | zero => intro pos n g posr hn h; simp [pollardRho] at h
  | succ m ih =>
    intro pos n g posr hn h
    simp only [pollardRho] at h
    by_cases heven : n % 2 = 0
    · rw [if_pos heven] at h
      have hpair := Option.some.inj h
      constructor
      · intro
        exact ((Prod.mk.injEq 2 pos g posr).mp hpair).1.symm
      · intro hodd; omega
    · rw [if_neg heven] at h
      split at h
      · exact absurd h (by simp)
      · rename_i g1 hinner
        by_cases hgn : g1 = n
        · rw [if_pos hgn] at h
          exact ih _ n g posr hn h
        · rw [if_neg hgn] at h
          have hpair := Option.some.inj h
          have hg1 : g = g1 := ((Prod.mk.injEq g1 _ g posr).mp hpair).1.symm
          subst hg1
          have hspec := rhoInner_spec n _ m _ _ g hinner
          constructor
          · intro he; omega
          · intro _
            have hg0 : g ≠ 0 := by
              intro h0
              subst h0
              have := Nat.eq_zero_of_zero_dvd hspec.2
              omega
            have hle : g ≤ n := Nat.le_of_dvd (by omega) hspec.2
            exact ⟨hspec.2, by omega, by omega⟩

/-! ## Product bookkeeping for the orchestrator -/

theorem prodF_nil : prodF [] = 1 := rfl

theorem prodF_cons (q e : Nat) (rest : List (Nat × Nat)) :
    prodF ((q, e) :: rest) = q ^ e * prodF rest := rfl

theorem prodL_nil : prodL [] = 1 := rfl

theorem prodL_cons (x : Nat) (s : List Nat) : prodL (x :: s) = x * prodL s := rfl

/-- Recording one more occurrence of `p` multiplies the factor product by `p`. -/
theorem prodF_addFactor : ∀ factors p, prodF (addFactor factors p) = p * prodF factors := by
  intro factors
  induction factors with
  | nil => intro p; simp [addFactor, prodF]
  | cons pe rest ih =>
    intro p
    rcases pe with ⟨q, e⟩
    by_cases hqp : q = p
    · subst hqp
      rw [addFactor, if_pos rfl, prodF_cons, prodF_cons]
      ring
    · rw [addFactor, if_neg hqp, prodF_cons, prodF_cons, ih p]
      ring

/-- One work-stack iteration preserves the running product
`prodF factors * prodL stack` (with the popped `target` still counted), and
keeps every stack entry positive. -/
theorem stackStep_spec (rand : Nat → Nat) (rhoFuel pos target : Nat)
    (stack : List Nat) (factors : List (Nat × Nat))
    (st : List Nat × List (Nat × Nat) × Nat)
    (htarget : 1 ≤ target) (hstack : ∀ x ∈ stack, 1 ≤ x)
    (h : stackStep rand rhoFuel pos target stack factors = some st) :
    prodF st.2.1 * prodL st.1 = prodF factors * (target * prodL stack) ∧
      ∀ x ∈ st.1, 1 ≤ x := by
  rw [stackStep] at h
  by_cases h1 : target = 1
  · rw [if_pos h1] at h
    have hst := Option.some.inj h
    subst hst
    subst h1
    exact ⟨by ring, hstack⟩
  · rw [if_neg h1] at h
    by_cases hpr : (isPrimeMillerRabin rand pos target 5).1 = true
    · rw [if_pos hpr] at h
      have hst := Option.some.inj h
      subst hst
      refine ⟨?_, hstack⟩
      simp only [prodF_addFactor]
      ring
    · rw [if_neg hpr] at h
      cases hrho : pollardRho rand rhoFuel (isPrimeMillerRabin rand pos target 5).2 target with
      | none => rw [hrho] at h; exact absurd h (by simp)
      | some fp =>
        rw [hrho] at h
        have hst := Option.some.inj h
        subst hst
        obtain ⟨f, pos2⟩ := fp
        have hspec := pollardRho_spec rand rhoFuel _ target f pos2 (by omega) hrho
        have hf : f ∣ target ∧ 1 ≤ f ∧ f ≤ target := by
          rcases Nat.mod_two_eq_zero_or_one target with he | ho
          · have hf2 : f = 2 := hspec.1 he
            refine ⟨?_, ?_, ?_⟩
            · rw [hf2]; exact Nat.dvd_of_mod_eq_zero he
            · omega
            · have h2t : 2 ≤ target := by omega
              omega
          · have hsp := hspec.2 ho
            exact ⟨hsp.1, by omega, by omega⟩
        obtain ⟨hfd, hf1, hfle⟩ := hf
        have hq1 : 1 ≤ target / f := by
          rw [Nat.one_le_div_iff (by omega)]
          exact hfle
        constructor
        · simp only [prodL_cons]
          have hcancel : target / f * f = target := Nat.div_mul_cancel hfd
          calc prodF factors * (target / f * (f * prodL stack))
              = prodF factors * ((target / f * f) * prodL stack) := by ring
            _ = prodF factors * (target * prodL stack) := by rw [hcancel]
        · intro x hx
          rcases List.mem_cons.mp hx with hx1 | hx1
          · rw [hx1]; exact hq1
          rcases List.mem_cons.mp hx1 with hx2 | hx2
          · rw [hx2]; exact hf1
          · exact hstack x hx2

/-- The work-stack loop preserves the product invariant: when it returns a
multiset, its product is the product of the incoming factors times the
product of the stack. -/
theorem stackLoop_prod (rand : Nat → Nat) :
    ∀ fuel pos stack factors res,
      (∀ x ∈ stack, 1 ≤ x) →
      stackLoop rand fuel pos stack factors = some res →
      prodF res = prodF factors * prodL stack := by
  intro fuel
  induction fuel with
  | zero =>
    intro pos stack factors res hstack h
    cases stack with
    | nil =>
      have hres := Option.some.inj h
      subst hres
      simp [prodL_nil]
    | cons a s => exact absurd h (by simp [stackLoop])
  | succ m ih =>
    intro pos stack factors res hstack h
    cases stack with
    | nil =>
      have hres := Option.some.inj h
      subst hres
      simp [prodL_nil]
    | cons target s =>
      rw [stackLoop] at h
      cases hstep : stackStep rand m pos target s factors with
      | none => rw [hstep] at h; exact absurd h (by simp)
      | some st =>
        rw [hstep] at h
        have htarget : 1 ≤ target := hstack target (List.mem_cons_self _ _)
        have hspec := stackStep_spec rand m pos target s factors st htarget
          (fun x hx => hstack x (List.mem_cons_of_mem target hx)) hstep
        have hloop := ih st.2.2 st.1 st.2.1 res hspec.2 h
        rw [hloop, hspec.1, prodL_cons]

/-! ## Trial-division lemmas -/

/-- The divide-out loop preserves the product and positivity. -/
theorem divideOut_spec : ∀ fuel p n factors res, 2 ≤ p →
    divideOut fuel p n factors = some res →
    prodF res.1 * res.2 = prodF factors * n ∧ (1 ≤ n → 1 ≤ res.2) := by
  intro fuel
  induction fuel with
  | zero => intro p n factors res hp h; exact absurd h (by simp [divideOut])
  | succ m ih =>
    intro p n factors res hp h
    rw [divideOut] at h
    by_cases hmod : n % p = 0
    · rw [if_pos hmod] at h
      have hdvd : p ∣ n := Nat.dvd_of_mod_eq_zero hmod
      have hih := ih p (n / p) (addFactor factors p) res hp h
      constructor
      · rw [hih.1, prodF_addFactor]
        have hcancel : p * (n / p) = n := Nat.mul_div_cancel' hdvd
        calc p * prodF factors * (n / p) = prodF factors * (p * (n / p)) := by ring
          _ = prodF factors * n := by rw [hcancel]
      · intro hn
        apply hih.2
        have hpn : p ≤ n := Nat.le_of_dvd (by omega) hdvd
        exact Nat.one_le_div_iff (by omega) |>.mpr hpn
    · rw [if_neg hmod] at h
      have hres := Option.some.inj h
      subst hres
      exact ⟨rfl, fun hn => hn⟩

/-- Trial division preserves the product and positivity. -/
theorem trialDivide_spec : ∀ ps n factors res, (∀ p ∈ ps, 2 ≤ p) →
    trialDivide ps n factors = some res →
    prodF res.1 * res.2 = prodF factors * n ∧ (1 ≤ n → 1 ≤ res.2) := by
  intro ps
  induction ps with
  | nil =>
    intro n factors res _ h
    have hres := Option.some.inj h
    subst hres
    exact ⟨rfl, fun hn => hn⟩
  | cons p ps ih =>
    intro n factors res hmem h
    rw [trialDivide] at h
    by_cases hbr : p * p > n
    · rw [if_pos hbr] at h
      have hres := Option.some.inj h
      subst hres
      exact ⟨rfl, fun hn => hn⟩
    · rw [if_neg hbr] at h
      cases hdo : divideOut (n + 1) p n factors with
      | none => rw [hdo] at h; exact absurd h (by simp)
      | some pr =>
        rw [hdo] at h
        have hp2 : 2 ≤ p := hmem p (List.mem_cons_self _ _)
        have hdo2 := divideOut_spec (n + 1) p n factors pr hp2 hdo
        have hih := ih pr.2 pr.1 res (fun q hq => hmem q (List.mem_cons_of_mem p hq)) h
        constructor
        · rw [hih.1, hdo2.1]
        · intro hn
          exact hih.2 (hdo2.2 hn)

/-- When no listed prime divides `n`, trial division is the identity. -/
theorem trialDivide_nodvd : ∀ ps n factors, (∀ p ∈ ps, ¬ p ∣ n) → 1 ≤ n →
    trialDivide ps n factors = some (factors, n) := by
  intro ps
  induction ps with
  | nil => intro n factors _ _; rfl
  | cons p ps ih =>
    intro n factors hmem hn
    rw [trialDivide]
    by_cases hbr : p * p > n
    · rw [if_pos hbr]
    · rw [if_neg hbr]
      have hmod : ¬ n % p = 0 := by
        intro h0
        exact hmem p (List.mem_cons_self _ _) (Nat.dvd_of_mod_eq_zero h0)
      rw [divideOut, if_neg hmod]
      exact ih n factors (fun q hq => hmem q (List.mem_cons_of_mem p hq)) hn

/-- Unfolding: a head prime past the break bound stops trial division. -/
theorem trialDivide_break (p : Nat) (ps : List Nat) (n : Nat)
    (f : List (Nat × Nat)) (hbr : p * p > n) :
    trialDivide (p :: ps) n f = some (f, n) := by
  rw [trialDivide, if_pos hbr]

/-- Unfolding: a head prime below the bound divides out and recurses. -/
theorem trialDivide_cons_step (p : Nat) (ps : List Nat) (n : Nat)
    (f : List (Nat × Nat)) (pr : List (Nat × Nat) × Nat) (hbr : ¬ p * p > n)
    (hdo : divideOut (n + 1) p n f = some pr) :
    trialDivide (p :: ps) n f = trialDivide ps pr.2 pr.1 := by
  rw [trialDivide, if_neg hbr, hdo]

/-- The empty stack returns the accumulated factors, whatever the fuel. -/
theorem stackLoop_nil (rand : Nat → Nat) (fuel pos : Nat)
    (factors : List (Nat × Nat)) :
    stackLoop rand fuel pos [] factors = some factors := by
  cases fuel <;> rfl

/-- Unfolding one work-stack iteration through a successful step. -/
theorem stackLoop_cons (rand : Nat → Nat) (fuel pos target : Nat)
    (stack : List Nat) (factors : List (Nat × Nat))
    (st : List Nat × List (Nat × Nat) × Nat)
    (h : stackStep rand fuel pos target stack factors = some st) :
    stackLoop rand (fuel + 1) pos (target :: stack) factors
      = stackLoop rand fuel st.2.2 st.1 st.2.1 := by
  rw [stackLoop, h]

/-- A target certified by the oracle (any prime `≥ 5`) is recorded, consuming
the five per-round stream values. -/
theorem stackStep_prime (rand : Nat → Nat) (rhoFuel pos target : Nat)
    (stack : List Nat) (factors : List (Nat × Nat))
    (hprime : Nat.Prime target) (h5 : 5 ≤ target) :
    stackStep rand rhoFuel pos target stack factors
      = some (stack, addFactor factors target, pos + 5) := by
  simp only [stackStep]
  rw [if_neg (by omega : ¬ target = 1),
    isPrimeMR_prime_large rand pos target 5 hprime h5]
  rfl

/-- Unfolding `factorize` through a successful trial division. -/
theorem factorize_of_trial (rand : Nat → Nat) (fuel n : Nat)
    (pr : List (Nat × Nat) × Nat)
    (htd : trialDivide smallPrimes n [] = some pr) :
    factorize rand fuel n = afterTrial rand fuel pr := by
  rw [factorize, htd]
  rfl

/-- `factorize` is the identity product: any returned multiset multiplies
back to the input (claim C1 core). -/
theorem factorize_prod (rand : Nat → Nat) (fuel n : Nat)
    (res : List (Nat × Nat)) (hn : 1 ≤ n)
    (h : factorize rand fuel n = some res) : prodF res = n := by
  cases htd : trialDivide smallPrimes n [] with
  | none =>
    rw [factorize, htd] at h
    exact absurd h (by simp)
  | some pr =>
    rw [factorize_of_trial rand fuel n pr htd, afterTrial] at h
    have hspec := trialDivide_spec smallPrimes n [] pr
      (fun p hp => (smallPrimes_mem p hp).1) htd
    have hprod : prodF pr.1 * pr.2 = n := by
      have h1 := hspec.1
      rwa [prodF_nil, one_mul] at h1
    by_cases h1 : pr.2 = 1
    · rw [if_pos h1] at h
      have hres := Option.some.inj h
      subst hres
      rw [h1, mul_one] at hprod
      exact hprod
    · rw [if_neg h1] at h
      have hpos : 1 ≤ pr.2 := hspec.2 hn
      have hloop := stackLoop_prod rand fuel 0 [pr.2] pr.1 res ?_ h
      · rw [hloop, prodL_cons, prodL_nil]
        calc prodF pr.1 * (pr.2 * 1) = prodF pr.1 * pr.2 := by ring
          _ = n := hprod
      · intro x hx
        rcases List.mem_cons.mp hx with h2 | h2
        · rw [h2]; exact hpos
        · simp at h2

/-! ## Concrete trial-division evaluations (through the sieve prefix) -/

theorem trialDivide_eval_1 : trialDivide smallPrimes 1 [] = some ([], 1) := by
  rw [smallPrimes_start]
  exact trialDivide_break 2 _ 1 [] (by norm_num)

theorem trialDivide_eval_2 : trialDivide smallPrimes 2 [] = some ([], 2) := by
  rw [smallPrimes_start]
  exact trialDivide_break 2 _ 2 [] (by norm_num)

theorem trialDivide_eval_17 : trialDivide smallPrimes 17 [] = some ([], 17) := by
  rw [smallPrimes_start]
  rw [trialDivide_cons_step 2 _ 17 [] ([], 17) (by norm_num) (by decide)]
  rw [trialDivide_cons_step 3 _ 17 [] ([], 17) (by norm_num) (by decide)]
  exact trialDivide_break 5 _ 17 [] (by norm_num)

theorem trialDivide_eval_360 :
    trialDivide smallPrimes 360 [] = some ([(2, 3), (3, 2)], 5) := by
  rw [smallPrimes_start]
  rw [trialDivide_cons_step 2 _ 360 [] ([(2, 3)], 45) (by norm_num) (by decide)]
  rw [trialDivide_cons_step 3 _ 45 [(2, 3)] ([(2, 3), (3, 2)], 5)
    (by norm_num) (by decide)]
  exact trialDivide_break 5 _ 5 [(2, 3), (3, 2)] (by norm_num)

theorem trialDivide_eval_16 : trialDivide smallPrimes 16 [] = some ([(2, 4)], 1) := by
  rw [smallPrimes_start]
  rw [trialDivide_cons_step 2 _ 16 [] ([(2, 4)], 1) (by norm_num) (by decide)]
  exact trialDivide_break 3 _ 1 [(2, 4)] (by norm_num)

/-! ## Concrete `factorize` evaluations -/

theorem afterTrial_one (rand : Nat → Nat) (fuel : Nat) (f1 : List (Nat × Nat)) :
    afterTrial rand fuel (f1, 1) = some f1 := by
  simp [afterTrial]

theorem afterTrial_stack (rand : Nat → Nat) (fuel : Nat) (f1 : List (Nat × Nat))
    (n1 : Nat) (h : n1 ≠ 1) :
    afterTrial rand fuel (f1, n1) = stackLoop rand fuel 0 [n1] f1 := by
  simp [afterTrial, h]

theorem factorize_eval_1 (rand : Nat → Nat) (fuel : Nat) :
    factorize rand fuel 1 = some [] := by
  rw [factorize_of_trial rand fuel 1 ([], 1) trialDivide_eval_1]
  exact afterTrial_one rand fuel []

theorem factorize_eval_2 (rand : Nat → Nat) (fuel : Nat) :
    factorize rand (fuel + 1) 2 = some [(2, 1)] := by
  rw [factorize_of_trial rand (fuel + 1) 2 ([], 2) trialDivide_eval_2,
    afterTrial_stack rand (fuel + 1) [] 2 (by norm_num)]
  rw [stackLoop_cons rand fuel 0 2 [] [] ([], [(2, 1)], 0) rfl]
  exact stackLoop_nil rand fuel 0 [(2, 1)]

theorem factorize_eval_17 (rand : Nat → Nat) (fuel : Nat) :
    factorize rand (fuel + 1) 17 = some [(17, 1)] := by
  rw [factorize_of_trial rand (fuel + 1) 17 ([], 17) trialDivide_eval_17,
    afterTrial_stack rand (fuel + 1) [] 17 (by norm_num)]
  rw [stackLoop_cons rand fuel 0 17 [] [] ([], [(17, 1)], 5)
    (stackStep_prime rand fuel 0 17 [] [] (by norm_num) (by norm_num))]
  exact stackLoop_nil rand fuel 5 [(17, 1)]

theorem factorize_eval_360 (rand : Nat → Nat) (fuel : Nat) :
    factorize rand (fuel + 1) 360 = some [(2, 3), (3, 2), (5, 1)] := by
  rw [factorize_of_trial rand (fuel + 1) 360 ([(2, 3), (3, 2)], 5) trialDivide_eval_360,
    afterTrial_stack rand (fuel + 1) [(2, 3), (3, 2)] 5 (by norm_num)]
  rw [stackLoop_cons rand fuel 0 5 [] [(2, 3), (3, 2)] ([], [(2, 3), (3, 2), (5, 1)], 5)
    (stackStep_prime rand fuel 0 5 [] [(2, 3), (3, 2)] (by norm_num) (by norm_num))]
  exact stackLoop_nil rand fuel 5 [(2, 3), (3, 2), (5, 1)]

theorem factorize_eval_16 (rand : Nat → Nat) (fuel : Nat) :
    factorize rand fuel 16 = some [(2, 4)] := by
  rw [factorize_of_trial rand fuel 16 ([(2, 4)], 1) trialDivide_eval_16]
  exact afterTrial_one rand fuel [(2, 4)]

/-- Whenever the remainder after trial division is 1 or a prime, `factorize`
terminates (some fuel returns a multiset), for every random stream. -/
theorem factorize_terminates_of_remainder (rand : Nat → Nat) (n : Nat)
    (pr : List (Nat × Nat) × Nat)
    (htd : trialDivide smallPrimes n [] = some pr)
    (hrem : pr.2 = 1 ∨ Nat.Prime pr.2) :
    ∃ fuel res, factorize rand fuel n = some res := by
  rcases hrem with h1 | hprime
  · refine ⟨0, pr.1, ?_⟩
    rw [factorize_of_trial rand 0 n pr htd, afterTrial, if_pos h1]
  · refine ⟨1, addFactor pr.1 pr.2, ?_⟩
    have hne1 : pr.2 ≠ 1 := by have := hprime.two_le; omega
    rw [factorize_of_trial rand 1 n pr htd, afterTrial, if_neg hne1]
    have hstep : ∃ pos2, stackStep rand 0 0 pr.2 [] pr.1
        = some ([], addFactor pr.1 pr.2, pos2) := by
      refine ⟨(isPrimeMillerRabin rand 0 pr.2 5).2, ?_⟩
      simp only [stackStep]
      rw [if_neg hne1, isPrimeMR_prime rand 0 pr.2 5 hprime]
      rfl
    rcases hstep with ⟨pos2, hstep⟩
    rw [stackLoop_cons rand 0 0 pr.2 [] pr.1 ([], addFactor pr.1 pr.2, pos2) hstep]
    exact stackLoop_nil rand 0 pos2 (addFactor pr.1 pr.2)

/-! ## The semiprime `n9`: trial division, divergence, concrete run -/

/-- No sieve prime divides `n9 = q9 * r9` (both factors exceed the sieve
bound). -/
theorem smallPrimes_not_dvd_n9 (p : Nat) (hp : p ∈ smallPrimes) : ¬ p ∣ n9 := by
  obtain ⟨h2, hle⟩ := smallPrimes_mem p hp
  intro hdvd
  have hq : ¬ q9 ∣ p := by
    intro hd
    have h1 := Nat.le_of_dvd (by omega) hd
    have h2q : (100000 : Nat) < q9 := by norm_num [q9]
    omega
  have hcop : Nat.Coprime p q9 :=
    ((Nat.Prime.coprime_iff_not_dvd q9_prime).mpr hq).symm
  have hdr : p ∣ r9 := hcop.dvd_of_dvd_mul_left (show p ∣ q9 * r9 from hdvd)
  rcases Nat.Prime.eq_one_or_self_of_dvd r9_prime p hdr with h | h
  · omega
  · have h2r : (100000 : Nat) < r9 := by norm_num [r9]
    omega

theorem trialDivide_n9 : trialDivide smallPrimes n9 [] = some ([], n9) :=
  trialDivide_nodvd smallPrimes n9 [] smallPrimes_not_dvd_n9 (by norm_num [n9, q9, r9])

/-- With seed `x = 2` and increment `c = n9 - 2`, the walk is stuck at the
fixed point 2, so the very first gcd is `n9`. -/
theorem rhoInner_fix (m : Nat) : rhoInner n9 (n9 - 2) (m + 1) 2 2 = some n9 := by
  simp only [rhoInner]
  split
  · rename_i hg
    rw [(by decide : (2 * 2 + (n9 - 2)) % n9 = 2)] at hg
    rw [(by decide : (2 * 2 + (n9 - 2)) % n9 = 2)] at hg
    exact absurd hg (by decide)
  · rename_i hg
    congr 1

/-- Under the adversarial stream every rho attempt on `n9` restarts: the
retry loop never terminates, whatever the fuel. -/
theorem pollardRho_randFix : ∀ fuel pos, pos % 2 = 1 →
    pollardRho randFix fuel pos n9 = none := by
  intro fuel
  induction fuel with
  | zero => intro pos _; rfl
  | succ m ih =>
    intro pos hpos
    have hrfix1 : randFix pos = 0 := by
      simp only [randFix]
      rw [if_neg (by omega : ¬ pos = 0), if_pos hpos]
    have hrfix2 : randFix (pos + 1) = n9 - 3 := by
      simp only [randFix]
      rw [if_neg (by omega : ¬ pos + 1 = 0), if_neg (by omega : ¬ (pos + 1) % 2 = 1)]
    simp only [pollardRho, hrfix1, hrfix2]
    rw [if_neg (by decide : ¬ n9 % 2 = 0)]
    rw [(by decide : (randBigInt 0 2 ((n9 : Int) - 1)).toNat = 2),
      (by decide : (randBigInt (n9 - 3) 1 ((n9 : Int) - 1)).toNat = n9 - 2)]
    cases m with
    | zero => rfl
    | succ m2 =>
      rw [rhoInner_fix m2]
      show (if n9 = n9 then pollardRho randFix (m2 + 1) (pos + 2) n9
        else some (n9, pos + 2)) = none
      rw [if_pos rfl]
      exact ih (pos + 2) (by omega)

/-- Under the adversarial stream `factorize n9` diverges: no fuel returns. -/
theorem stackLoop_randFix (fuel : Nat) : stackLoop randFix fuel 0 [n9] [] = none := by
  cases fuel with
  | zero => rfl
  | succ m =>
    have hstep : stackStep randFix m 0 n9 [] [] = none := by
      simp only [stackStep]
      rw [if_neg (by decide : ¬ n9 = 1),
        (by decide : isPrimeMillerRabin randFix 0 n9 5 = (false, 1))]
      rw [pollardRho_randFix m 1 (by norm_num)]
      rfl
    rw [stackLoop, hstep]

theorem factorize_randFix (fuel : Nat) : factorize randFix fuel n9 = none := by
  rw [factorize_of_trial randFix fuel n9 ([], n9) trialDivide_n9,
    afterTrial_stack randFix fuel [] n9 (by decide)]
  exact stackLoop_randFix fuel

/-- The concrete `n9` run under `rand9`: the oracle rejects `n9`, rho returns
the smaller prime `q9` at once, and the two primes are recorded in the order
`r9` then `q9` — descending keys. -/
theorem factorize_rand9 : factorize rand9 4 n9 = some [(r9, 1), (q9, 1)] := by
  rw [factorize_of_trial rand9 4 n9 ([], n9) trialDivide_n9,
    afterTrial_stack rand9 4 [] n9 (by decide)]
  decide

/-! ## Parser lemmas (`BigInt(inputStr)`) -/

theorem isDecDigit_not_space (c : Char) (h : isDecDigit c = true) :
    isJsSpace c = false := by
  simp only [isDecDigit, Bool.and_eq_true, decide_eq_true_eq] at h
  simp only [isJsSpace, Bool.or_eq_false_iff, decide_eq_false_iff_not]
  refine ⟨⟨⟨⟨⟨?_, ?_⟩, ?_⟩, ?_⟩, ?_⟩, ?_⟩ <;> (rintro rfl; exact absurd h (by decide))

theorem isDecDigit_ne (c x : Char) (h : isDecDigit c = true)
    (hx : isDecDigit x = false) : c ≠ x := by
  intro heq
  subst heq
  rw [h] at hx
  exact absurd hx (by simp)

theorem digitVal_digit (c : Char) (h : isDecDigit c = true) :
    digitVal 10 c = some (c.toNat - 48) := by
  have h2 := h
  simp only [isDecDigit, Bool.and_eq_true, decide_eq_true_eq] at h2
  simp only [digitVal, if_pos h]
  rw [if_pos (by omega : c.toNat - 48 < 10)]

theorem parseDigitsAux_digits : ∀ (l : List Char) (acc : Nat),
    (∀ c ∈ l, isDecDigit c = true) → ∃ v, parseDigitsAux 10 acc l = some v := by
  intro l
  induction l with
  | nil => intro acc _; exact ⟨acc, rfl⟩
  | cons c rest ih =>
    intro acc hall
    rw [parseDigitsAux, digitVal_digit c (hall c (List.mem_cons_self _ _))]
    exact ih _ (fun x hx => hall x (List.mem_cons_of_mem c hx))

theorem dropWhile_nospace (l : List Char) (hall : ∀ c ∈ l, isDecDigit c = true) :
    l.dropWhile isJsSpace = l := by
  cases l with
  | nil => rfl
  | cons c rest =>
    rw [List.dropWhile_cons, isDecDigit_not_space c (hall c (List.mem_cons_self _ _))]
    simp

theorem trim_digits (s : String) (hall : ∀ c ∈ s.toList, isDecDigit c = true) :
    ((s.toList.dropWhile isJsSpace).reverse.dropWhile isJsSpace).reverse = s.toList := by
  rw [dropWhile_nospace s.toList hall,
    dropWhile_nospace s.toList.reverse (fun c hc => hall c (List.mem_reverse.mp hc))]
  exact List.reverse_reverse _

/-- Every non-empty decimal-digit string is accepted by the `BigInt` parser,
with a non-negative value. -/
theorem jsStringToBigInt_digits (s : String) (hs : isDecimalDigitString s = true) :
    ∃ v : Nat, jsStringToBigInt s = some (Int.ofNat v) := by
  simp only [isDecimalDigitString, Bool.and_eq_true, List.all_eq_true,
    Bool.not_eq_true'] at hs
  obtain ⟨hne, hall⟩ := hs
  simp only [jsStringToBigInt]
  rw [trim_digits s hall]
  cases hls : s.toList with
  | nil => rw [hls] at hne; exact absurd hne (by simp)
  | cons c1 rest1 =>
    have hall1 : ∀ c ∈ c1 :: rest1, isDecDigit c = true := by
      rw [← hls]; exact hall
    cases rest1 with
    | nil =>
      dsimp only
      obtain ⟨v, hv⟩ := parseDigitsAux_digits [c1] 0 hall1
      refine ⟨v, ?_⟩
      rw [parseDigits, hv]
      rfl
    | cons c2 rest2 =>
      dsimp only
      have hd1 : isDecDigit c1 = true := hall1 c1 (List.mem_cons_self _ _)
      have hd2 : isDecDigit c2 = true :=
        hall1 c2 (List.mem_cons_of_mem c1 (List.mem_cons_self _ _))
      rw [if_neg, if_neg, if_neg, if_neg, if_neg]
      · obtain ⟨v, hv⟩ := parseDigitsAux_digits (c1 :: c2 :: rest2) 0 hall1
        refine ⟨v, ?_⟩
        rw [parseDigits, hv]
        rfl
      · exact isDecDigit_ne c1 '-' hd1 (by decide)
      · exact isDecDigit_ne c1 '+' hd1 (by decide)
      · rintro ⟨-, h | h⟩
        · exact isDecDigit_ne c2 'x' hd2 (by decide) h
        · exact isDecDigit_ne c2 'X' hd2 (by decide) h
      · rintro ⟨-, h | h⟩
        · exact isDecDigit_ne c2 'o' hd2 (by decide) h
        · exact isDecDigit_ne c2 'O' hd2 (by decide) h
      · rintro ⟨-, h | h⟩
        · exact isDecDigit_ne c2 'b' hd2 (by decide) h
        · exact isDecDigit_ne c2 'B' hd2 (by decide) h

/-- A rejected input string makes the handler post the error response. -/
theorem onmessage_parse_error (rand : Nat → Nat) (fuel : Nat) (s : String)
    (h : jsStringToBigInt s = none) :
    onmessage rand fuel s = some Response.error := by
  rw [onmessage, h]

/-- A decimal-digit input string never produces the parse-error response. -/
theorem onmessage_digits_no_error (rand : Nat → Nat) (fuel : Nat) (s : String)
    (resp : Response) (hs : isDecimalDigitString s = true)
    (h : onmessage rand fuel s = some resp) : resp ≠ Response.error := by
  obtain ⟨v, hv⟩ := jsStringToBigInt_digits s hs
  rw [onmessage, hv] at h
  dsimp only at h
  cases hf : factorizeInt rand fuel (Int.ofNat v) with
  | none =>
    rw [hf, Option.map_none'] at h
    exact Option.noConfusion h
  | some f =>
    rw [hf, Option.map_some'] at h
    have hr := Option.some.inj h
    rw [← hr]
    intro hcontra
    exact Response.noConfusion hcontra

/-- The hex-literal input `"0x10"` is parsed as 16 and fully factorized: no
error is reported although the string is not a decimal integer. -/
theorem onmessage_hex :
    onmessage (fun _ => 0) 0 "0x10" = some (Response.success "0x10" [(2, 4)]) := by
  rw [onmessage, (by decide : jsStringToBigInt "0x10" = some 16)]
  have hf : factorizeInt (fun _ => 0) 0 (16 : Int) = some [(2, 4)] := by
    rw [factorizeInt, if_neg (by norm_num)]
    exact factorize_eval_16 (fun _ => 0) 0
  dsimp only
  rw [hf, Option.map_some']

/-- The handler response for the valid decimal input `"1"`. -/
theorem onmessage_one :
    onmessage (fun _ => 0) 0 "1" = some (Response.success "1" []) := by
  rw [onmessage, (by decide : jsStringToBigInt "1" = some 1)]
  have hf : factorizeInt (fun _ => 0) 0 (1 : Int) = some [] := by
    rw [factorizeInt, if_neg (by norm_num)]
    exact factorize_eval_1 (fun _ => 0) 0
  dsimp only
  rw [hf, Option.map_some']

/-! ## Claim theorems -/

/-- C1: For every integer `n ≥ 1`, whenever `factorize(n)` terminates and
returns a Factor Multiset, the product of `key ^ exponent` over all entries
of the returned multiset equals `n` exactly, for every sequence of values
produced by the random source. -/
theorem claim_C1 (rand : Nat → Nat) (fuel n : Nat) (res : List (Nat × Nat))
    (hn : 1 ≤ n) (h : factorize rand fuel n = some res) : prodF res = n :=
  factorize_prod rand fuel n res hn h

theorem claim_C1_witness : 1 ≤ 360 ∧ prodF [(2, 3), (3, 2), (5, 1)] = 360 :=
  ⟨by decide, claim_C1 (fun _ => 0) 1 360 [(2, 3), (3, 2), (5, 1)] (by decide)
    (factorize_eval_360 (fun _ => 0) 0)⟩

/-- C2 counterexample: `factorize` is not total for every random sequence —
under the adversarial stream `randFix` the Factor Finder's retry loop on
`n9 = q9 · r9` restarts forever, so no fuel makes `factorize` return. -/
theorem claim_C2_counterexample :
    ¬ ∃ fuel res, factorize randFix fuel n9 = some res := by
  rintro ⟨fuel, res, h⟩
  rw [factorize_randFix fuel] at h
  exact Option.noConfusion h

/-- C2 (amended): `factorize(n)` terminates for every random sequence
whenever the remainder of `n` after trial division is 1 or a prime; for
general `n` the retry loop of the Factor Finder is unbounded and termination
cannot be guaranteed for every random sequence. -/
theorem claim_C2 (rand : Nat → Nat) (n : Nat) (pr : List (Nat × Nat) × Nat)
    (htd : trialDivide smallPrimes n [] = some pr)
    (hrem : pr.2 = 1 ∨ Nat.Prime pr.2) :
    ∃ fuel res, factorize rand fuel n = some res :=
  factorize_terminates_of_remainder rand n pr htd hrem

theorem claim_C2_witness : ∃ fuel res, factorize (fun _ => 0) fuel 17 = some res :=
  claim_C2 (fun _ => 0) 17 ([], 17) trialDivide_eval_17 (Or.inr (by norm_num))

/-- C3 counterexample: the input string `"0x10"` cannot be parsed as a
non-negative decimal integer, yet the handler reports no error — `BigInt`
accepts the hex literal and factorization runs to a success response. -/
theorem claim_C3_counterexample :
    isDecimalDigitString "0x10" = false ∧
    onmessage (fun _ => 0) 0 "0x10" = some (Response.success "0x10" [(2, 4)]) :=
  ⟨by decide, onmessage_hex⟩

/-- C3 (amended): every input string rejected by the `BigInt` string grammar
is reported as a parse error and factorization never starts; every valid
non-negative decimal digit string is parsed without error (no parse-error
response is possible for it); however, some strings that are not non-negative
decimal integers (hex/octal/binary literals, signed decimals, empty or
whitespace-only strings) are also accepted, and computation starts on them. -/
theorem claim_C3 :
    (∀ (rand : Nat → Nat) (fuel : Nat) (s : String), jsStringToBigInt s = none →
      onmessage rand fuel s = some Response.error) ∧
    (∀ (rand : Nat → Nat) (fuel : Nat) (s : String) (resp : Response),
      isDecimalDigitString s = true →
      onmessage rand fuel s = some resp → resp ≠ Response.error) :=
  ⟨onmessage_parse_error, onmessage_digits_no_error⟩

theorem claim_C3_witness :
    jsStringToBigInt "abc" = none ∧
    onmessage (fun _ => 0) 0 "abc" = some Response.error ∧
    isDecimalDigitString "1" = true ∧
    Response.success "1" [] ≠ Response.error :=
  ⟨by decide, claim_C3.1 (fun _ => 0) 0 "abc" (by decide), by decide,
    claim_C3.2 (fun _ => 0) 0 "1" (Response.success "1" []) (by decide) onmessage_one⟩

/-- C4 counterexample: `modPow(2, 0, 1)` returns the initial accumulator 1,
but `2^0 mod 1 = 0`, so the claimed identity fails at `modulus = 1`,
`exponent = 0`. -/
theorem claim_C4_counterexample : ¬ modPow 2 0 1 = 2 ^ 0 % 1 := by decide

/-- C4 (amended): for all `base ≥ 0`, `exponent ≥ 0` and `modulus ≥ 1`,
`modPow(base, exponent, modulus) = base^exponent mod modulus` whenever
`modulus ≥ 2` or `exponent ≥ 1`; in particular `modPow(a, 0, m)` returns `1`
for every `m ≥ 1` (which equals `1 mod m` only for `m ≥ 2`). -/
theorem claim_C4 :
    (∀ base exp mod : Nat, 1 ≤ mod → 2 ≤ mod ∨ 1 ≤ exp →
      modPow base exp mod = base ^ exp % mod) ∧
    (∀ a mod : Nat, modPow a 0 mod = 1) :=
  ⟨modPow_eq, fun _ _ => rfl⟩

theorem claim_C4_witness : modPow 3 5 7 = 3 ^ 5 % 7 ∧ modPow 9 0 4 = 1 :=
  ⟨claim_C4.1 3 5 7 (by decide) (Or.inl (by decide)), claim_C4.2 9 4⟩

/-- C5: The Primality Oracle has no false negatives: for every prime `n`,
every rounds count `k ≥ 0`, and every sequence of values produced by the
random source, `isPrimeMillerRabin(n, k)` returns true. -/
theorem claim_C5 (rand : Nat → Nat) (pos n k : Nat) (hn : Nat.Prime n) :
    (isPrimeMillerRabin rand pos n k).1 = true :=
  isPrimeMR_prime rand pos n k hn

theorem claim_C5_witness : (isPrimeMillerRabin (fun _ => 0) 0 17 5).1 = true :=
  claim_C5 (fun _ => 0) 0 17 5 (by norm_num)

/-- C6: Whenever `pollardRho(n)` terminates and returns `g` for `n ≥ 2`:
if `n` is even then `g = 2`, and if `n` is odd then `g` divides `n` with
`1 < g < n`, for every sequence of values produced by the random source. -/
theorem claim_C6 (rand : Nat → Nat) (fuel pos n g posr : Nat) (hn : 2 ≤ n)
    (h : pollardRho rand fuel pos n = some (g, posr)) :
    (n % 2 = 0 → g = 2) ∧ (n % 2 = 1 → g ∣ n ∧ 1 < g ∧ g < n) :=
  pollardRho_spec rand fuel pos n g posr hn h

theorem claim_C6_witness :
    (15 % 2 = 0 → (3 : Nat) = 2) ∧
    (15 % 2 = 1 → (3 : Nat) ∣ 15 ∧ 1 < 3 ∧ 3 < 15) :=
  claim_C6 (fun _ => 0) 5 0 15 3 2 (by decide) (by decide)

/-- C7: For all BigInt values `min < max` and every value produced by the
underlying random source, `randBigInt(min, max)` returns a value `v` with
`min ≤ v < max`, including when `max - min` exceeds the native machine-word /
safe-integer range (no silent wrap out of the interval). -/
theorem claim_C7 (randNum : Nat) (min max : Int) (h : min < max) :
    min ≤ randBigInt randNum min max ∧ randBigInt randNum min max < max :=
  randBigInt_range randNum min max h

theorem claim_C7_witness :
    (0 : Int) ≤ randBigInt 7 0 (2 ^ 100) ∧ randBigInt 7 0 (2 ^ 100) < 2 ^ 100 :=
  claim_C7 7 0 (2 ^ 100) (by norm_num)

/-- C8: Concrete decompositions hold for every random sequence (any fuel
`≥ 1`): `factorize(1)` is empty, `factorize(2) = {2: 1}`,
`factorize(17) = {17: 1}`, `factorize(360) = {2: 3, 3: 2, 5: 1}`. -/
theorem claim_C8 (rand : Nat → Nat) (fuel : Nat) (hfuel : 1 ≤ fuel) :
    factorize rand fuel 1 = some [] ∧
    factorize rand fuel 2 = some [(2, 1)] ∧
    factorize rand fuel 17 = some [(17, 1)] ∧
    factorize rand fuel 360 = some [(2, 3), (3, 2), (5, 1)] := by
  obtain ⟨m, rfl⟩ : ∃ m, fuel = m + 1 := ⟨fuel - 1, by omega⟩
  exact ⟨factorize_eval_1 rand (m + 1), factorize_eval_2 rand m,
    factorize_eval_17 rand m, factorize_eval_360 rand m⟩

theorem claim_C8_witness :
    1 ≤ 1 ∧ (factorize (fun _ => 0) 1 1 = some [] ∧
      factorize (fun _ => 0) 1 2 = some [(2, 1)] ∧
      factorize (fun _ => 0) 1 17 = some [(17, 1)] ∧
      factorize (fun _ => 0) 1 360 = some [(2, 3), (3, 2), (5, 1)]) :=
  ⟨by decide, claim_C8 (fun _ => 0) 1 (by decide)⟩

/-- C9 (code bug evidence): on `n9 = q9 · r9` under the stream `rand9`,
`factorize` terminates and stores the keys in insertion order `r9` then `q9`;
both exceed the array-index range `< 2^32 - 1`, so the engine's key iteration
order presents them in that order — descending, not ascending, contradicting
the sorted-presentation claim (and the source's own "sort and return"
comment). -/
theorem claim_C9 :
    factorize rand9 4 n9 = some [(r9, 1), (q9, 1)] ∧
    jsKeyOrder [(r9, 1), (q9, 1)] = [(r9, 1), (q9, 1)] ∧
    ¬ ascKeys (jsKeyOrder [(r9, 1), (q9, 1)]) :=
  ⟨factorize_rand9, by decide, by unfold ascKeys; decide⟩

/-- C10: Loop invariant of the orchestrator's reduction: each work-stack step
(discarding 1, recording a certified prime, or splitting a composite into `f`
and `candidate / f`) preserves the product of the accumulated factors times
the product of the values on the stack; consequently the whole loop returns a
multiset whose product is the initial factors product times the initial stack
product. -/
theorem claim_C10 :
    (∀ (rand : Nat → Nat) (rhoFuel pos target : Nat) (stack : List Nat)
        (factors : List (Nat × Nat)) (st : List Nat × List (Nat × Nat) × Nat),
      1 ≤ target → (∀ x ∈ stack, 1 ≤ x) →
      stackStep rand rhoFuel pos target stack factors = some st →
      prodF st.2.1 * prodL st.1 = prodF factors * (target * prodL stack)) ∧
    (∀ (rand : Nat → Nat) (fuel pos : Nat) (stack : List Nat)
        (factors res : List (Nat × Nat)),
      (∀ x ∈ stack, 1 ≤ x) →
      stackLoop rand fuel pos stack factors = some res →
      prodF res = prodF factors * prodL stack) :=
  ⟨fun rand rhoFuel pos target stack factors st ht hs h =>
    (stackStep_spec rand rhoFuel pos target stack factors st ht hs h).1,
   stackLoop_prod⟩

theorem claim_C10_witness :
    (prodF [] * prodL [5, 3] = prodF [] * (15 * prodL ([] : List Nat))) ∧
    (prodF [(2, 2), (3, 2)] = prodF [] * prodL [4, 9]) :=
  ⟨claim_C10.1 (fun _ => 0) 5 0 15 [] [] ([5, 3], [], 3) (by decide)
      (by decide) (by decide),
    claim_C10.2 (fun _ => 0) 10 0 [4, 9] [] [(2, 2), (3, 2)]
      (by decide) (by decide)⟩

end Worker
